import Mathlib

/-!
Verification of the cartograph core: the DSL parser (`src/lib/parser/parser.ts`)
and the graph repository (`src/lib/repository/concept-map.ts`).

Strings are modelled as `List Char` (`Str`); the `Str`-level helpers mirror the
JavaScript string operations used by the source (`trim`, `includes`, `split`,
`join`, `endsWith`).  Whitespace is restricted to the ASCII whitespace
characters that appear in the DSL; the source's TODO notes it is ASCII-only.
-/

namespace Cartograph

/-- Strings are lists of characters. -/
abbrev Str := List Char

/-- ASCII whitespace, as stripped by `String.prototype.trim` on DSL input. -/
def isWs (c : Char) : Bool := c = ' ' || c = '\t' || c = '\n' || c = '\r'

/-- Drop leading whitespace (left part of `trim`). -/
def ldrop (l : Str) : Str := l.dropWhile isWs

/-- Drop trailing whitespace (right part of `trim`). -/
def rdrop (l : Str) : Str := (l.reverse.dropWhile isWs).reverse

/-- JavaScript `String.prototype.trim`. -/
def trim (l : Str) : Str := rdrop (ldrop l)

/-- Split `hay` at the first occurrence of `tok`, returning the parts before
and after that occurrence.  `none` when `tok` does not occur. -/
def splitFirst (tok : Str) : Str → Option (Str × Str)
  | [] => if tok = [] then some ([], []) else none
  | c :: rest =>
    if tok.isPrefixOf (c :: rest) then some ([], (c :: rest).drop tok.length)
    else match splitFirst tok rest with
      | some (a, b) => some (c :: a, b)
      | none => none

/-- JavaScript `String.prototype.includes`. -/
def containsTok (tok : Str) (s : Str) : Bool := (splitFirst tok s).isSome

/-- The literal token between source and relationship. -/
def ddTok : Str := ("--").data

/-- The literal token between relationship and target. -/
def arTok : Str := ("->").data

/-- A newline, the character the input text is split on. -/
def nlTok : Str := ("\n").data

/-- JavaScript `text.split('\n')`: note `"".split` gives one empty piece. -/
def splitLines : Str → List Str
  | [] => [[]]
  | c :: rest =>
    let tail := splitLines rest
    if c = '\n' then [] :: tail
    else match tail with
      | [] => [[c]]
      | t :: ts => (c :: t) :: ts

/-- JavaScript `lines.join('\n')`. -/
def joinNl : List Str → Str
  | [] => []
  | [l] => l
  | l :: l2 :: ls => l ++ '\n' :: joinNl (l2 :: ls)

/-- Whether a (trimmed) line ends with a colon, as in `line.endsWith(':')`. -/
def endsColon (l : Str) : Bool :=
  match l.getLast? with
  | some c => c = ':'
  | none => false

/-! ## Parser data model (`src/lib/parser/types.ts`) -/

/-- A parsed predicate `source -- relationship -> target`. -/
structure Predicate where
  source : Str
  relationship : Str
  target : Str
deriving DecidableEq

/-- The distinct failure points of `parsePredicate`, one per `throw` site. -/
inductive PredErr where
  | hasNewline
  | noSeparators
  | emptyComponent
  | badSource
  | badRelationship
  | badTarget
deriving DecidableEq

/-- Which statement form failed, one constructor per `throw` site of
`parseDSL`; predicate failures carry the `parsePredicate` failure point. -/
inductive ErrTag where
  | predErr (e : PredErr)
  | emptyConcept
  | duplicateDef
  | unterminatedDef
deriving DecidableEq

/-- The `type` field of errors: `'syntax' | 'semantic'`. -/
inductive EType where
  | synKind
  | semKind
deriving DecidableEq

/-- A parse error; the human-readable message text is abstracted by `tag`. -/
structure ParseError where
  line : Nat
  column : Nat
  tag : ErrTag
  etype : EType
deriving DecidableEq

/-- The `type` field of warnings. -/
inductive WarnType where
  | orphanedDefinition
  | missingDefinition
deriving DecidableEq

/-- A parse warning; the message text is abstracted by its kind and the
concept id it mentions. -/
structure ParseWarning where
  line : Nat
  column : Nat
  wtype : WarnType
  concept : Str
deriving DecidableEq

/-- Result of `parseDSL`.  `definitions` is the `Record<string,string>`,
kept as an association list in key-insertion order. -/
structure ParsedDeclarations where
  predicates : List Predicate
  definitions : List (Str × Str)
  errors : List ParseError
  warnings : List ParseWarning
deriving DecidableEq

/-- Association-list lookup, mirroring `record[key]` giving `undefined` for
absent keys. -/
def assocLookup (m : List (Str × Str)) (k : Str) : Option Str :=
  match m with
  | [] => none
  | (k1, v1) :: rest => if k1 = k then some v1 else assocLookup rest k

/-- `record[key] = value`: overwrite in place if the key exists (JavaScript
objects keep the original insertion position), else append. -/
def mapSet (m : List (Str × Str)) (k v : Str) : List (Str × Str) :=
  match m with
  | [] => [(k, v)]
  | (k1, v1) :: rest => if k1 = k then (k, v) :: rest else (k1, v1) :: mapSet rest k v

/-- JavaScript truthiness of `record[key]`: defined and non-empty. -/
def truthyStr : Option Str → Bool
  | some s => !s.isEmpty
  | none => false

/-!
`parsePredicate` (parser.ts lines 13-54).  The source matches the regex
`^(.*?)\s*--\s*(.*?)\s*->\s*(.*)$` and then trims the three captures.  A lazy
group followed by `\s*` and a literal token matches at the first occurrence of
that token (backtracking can shift only whitespace between the capture and the
token, and every capture is trimmed immediately afterwards, so the captured
values coincide with splitting at the first `--` and then at the first
following `->` and trimming).  `.` does not match `'\n'`, and the function
rejects any line containing `'\n'` before matching.
-/

/-- Faithful rendering of `parsePredicate`: the newline guard, the
first-`--`-then-first-`->` split performed by the regex, the trims, the
non-empty checks and the token checks, in source order. -/
def parsePredicate (line : Str) : Except PredErr Predicate :=
  if containsTok nlTok line then .error .hasNewline
  else match splitFirst ddTok line with
  | none => .error .noSeparators
  | some (rawSource, rest) =>
    match splitFirst arTok rest with
    | none => .error .noSeparators
    | some (rawRelationship, rawTarget) =>
      let source := trim rawSource
      let relationship := trim rawRelationship
      let target := trim rawTarget
      if source = [] || relationship = [] || target = [] then .error .emptyComponent
      else if containsTok ddTok source || containsTok arTok source then .error .badSource
      else if containsTok ddTok relationship || containsTok arTok relationship then
        .error .badRelationship
      else if containsTok ddTok target || containsTok arTok target then .error .badTarget
      else .ok ⟨source, relationship, target⟩

/-- The definition terminator line. -/
def termTok : Str := ("---").data

/-- The inner `while` of the definition branch: consume raw body lines until a
line whose trimmed content is `---`; returns the body and the rest of the
input starting at the terminator (or `[]` when input ran out). -/
def scanBody : List Str → List Str × List Str
  | [] => ([], [])
  | l :: ls =>
    if trim l = termTok then ([], l :: ls)
    else
      let p := scanBody ls
      (l :: p.1, p.2)

theorem scanBody_append (ls : List Str) : (scanBody ls).1 ++ (scanBody ls).2 = ls := by
  induction ls with
  | nil => rfl
  | cons l ls ih =>
    by_cases h : trim l = termTok <;> simp [scanBody, h, ih]

theorem scanBody_rest_lt (xs b : List Str) (h : Str) (a : List Str)
    (heq : scanBody xs = (b, h :: a)) : a.length < xs.length := by
  have h1 := scanBody_append xs
  rw [heq] at h1
  have h2 := congrArg List.length h1
  simp at h2
  omega

/-- The main scanning loop of `parseDSL` (parser.ts lines 67-132).  `i` is the
0-based index of the first line of `rem` in the whole input; errors are built
at the `catch` site with `line = i + 1`, `column = 1`, kind `'syntax'`.

The loop consumes at least one line per iteration, so it is given the input
line count as structural fuel; `parseDSL` passes `rem.length`, which is
proved sufficient (`parseLoop_fuel`), so the fuel-exhausted arm is never
taken. -/
def parseLoop (fuel : Nat) (rem : List Str) (i : Nat) (preds : List Predicate)
    (defs : List (Str × Str)) : Except ParseError (List Predicate × List (Str × Str)) :=
  match fuel, rem with
  | _, [] => .ok (preds, defs)
  | 0, _ :: _ => .ok (preds, defs)
  | fuel + 1, l :: ls =>
    let line := trim l
    if line = [] then parseLoop fuel ls (i + 1) preds defs
    else if endsColon line then
      let conceptName := trim line.dropLast
      if conceptName = [] then .error ⟨i + 1, 1, .emptyConcept, .synKind⟩
      else if truthyStr (assocLookup defs conceptName) then
        .error ⟨i + 1, 1, .duplicateDef, .synKind⟩
      else match scanBody ls with
        | (body, []) => .error ⟨i + 1 + body.length + 1, 1, .unterminatedDef, .synKind⟩
        | (body, _ :: after) =>
          parseLoop fuel after (i + 1 + body.length + 1) preds
            (mapSet defs conceptName (trim (joinNl body)))
    else match parsePredicate line with
      | .ok p => parseLoop fuel ls (i + 1) (preds ++ [p]) defs
      | .error k => .error ⟨i + 1, 1, .predErr k, .synKind⟩

/-- Any fuel of at least the number of remaining lines gives the same result:
the fuel-exhausted arm of `parseLoop` is unreachable from `parseDSL`. -/
theorem parseLoop_fuel (fuel fuel2 : Nat) (rem : List Str) (i : Nat)
    (preds : List Predicate) (defs : List (Str × Str))
    (h : rem.length ≤ fuel) (h2 : rem.length ≤ fuel2) :
    parseLoop fuel rem i preds defs = parseLoop fuel2 rem i preds defs := by
  induction fuel generalizing fuel2 rem i preds defs with
  | zero =>
    have hrem : rem = [] := List.eq_nil_of_length_eq_zero (Nat.le_zero.mp h)
    subst hrem
    cases fuel2 <;> rfl
  | succ fuel ih =>
    cases rem with
    | nil => cases fuel2 <;> rfl
    | cons l ls =>
      rcases fuel2 with _ | fuel2
      · simp at h2
      · have hls : ls.length ≤ fuel := by simp at h; omega
        have hls2 : ls.length ≤ fuel2 := by simp at h2; omega
        simp only [parseLoop]
        by_cases hb : trim l = []
        · simp only [if_pos hb]
          exact ih fuel2 ls (i + 1) preds defs hls hls2
        · simp only [if_neg hb]
          by_cases hc : endsColon (trim l)
          · simp only [if_pos hc]
            by_cases he : trim (trim l).dropLast = []
            · simp only [if_pos he]
            · simp only [if_neg he]
              by_cases hd : truthyStr (assocLookup defs (trim (trim l).dropLast))
              · simp only [if_pos hd]
              · simp only [if_neg hd]
                rcases hs : scanBody ls with ⟨body, rest⟩
                rcases rest with _ | ⟨t, after⟩
                · rfl
                · have hafter : after.length < ls.length := scanBody_rest_lt _ _ _ _ hs
                  exact ih fuel2 after _ preds _ (by omega) (by omega)
          · simp only [if_neg hc]
            rcases hp : parsePredicate (trim l) with k | p
            · rfl
            · exact ih fuel2 ls (i + 1) (preds ++ [p]) defs hls hls2

/-- The literal `-->` used in dedup keys and edge ids. -/
def daTok : Str := ("-->").data

/-- The dedup key `` `${source}--${relationship}-->${target}` `` used both by
predicate dedup and as the derived edge id. -/
def predKey (p : Predicate) : Str := p.source ++ ddTok ++ p.relationship ++ daTok ++ p.target

/-- The dedup pass (parser.ts lines 145-150): keep a predicate at index `idx`
iff the first index whose key matches its key is `idx` itself. -/
def dedupPreds (ps : List Predicate) : List Predicate :=
  (ps.enum.filter (fun q => ps.findIdx (fun r => predKey r = predKey q.2) = q.1)).map Prod.snd

/-- Insertion into a JavaScript `Set` viewed as an insertion-ordered list. -/
def insertUniq (l : List Str) (x : Str) : List Str :=
  if x ∈ l then l else l ++ [x]

/-- The `conceptsInPredicates` set: for each predicate add its source then its
target (parser.ts lines 153-157). -/
def predConcepts (ps : List Predicate) : List Str :=
  ps.foldl (fun acc p => insertUniq (insertUniq acc p.source) p.target) []

/-- Warnings for definitions whose concept never occurs in a predicate
(parser.ts lines 162-171), in key-insertion order. -/
def orphanWarnings (defs : List (Str × Str)) (used : List Str) : List ParseWarning :=
  (defs.map Prod.fst).filterMap
    (fun c => if c ∈ used then none else some ⟨1, 1, .orphanedDefinition, c⟩)

/-- Warnings for predicate concepts that have no definition entry
(parser.ts lines 174-183), in first-use order. -/
def missingWarnings (used : List Str) (defs : List (Str × Str)) : List ParseWarning :=
  used.filterMap
    (fun c => if (assocLookup defs c).isSome then none else some ⟨1, 1, .missingDefinition, c⟩)

/-- `parseDSL` (parser.ts lines 60-191): scan, fail fast returning a single
error with empty collections, otherwise dedup predicates and compute
warnings. -/
def parseDSL (text : Str) : ParsedDeclarations :=
  match parseLoop (splitLines text).length (splitLines text) 0 [] [] with
  | .error e => ⟨[], [], [e], []⟩
  | .ok (preds, defs) =>
    let uniq := dedupPreds preds
    let used := predConcepts uniq
    ⟨uniq, defs, [], orphanWarnings defs used ++ missingWarnings used defs⟩

/-! ## Repository data model (`src/lib/repository/types.ts`)

Nodes are identified by their id; `Node.equals` compares ids, maps and sets
are keyed by id, and the `FilterState` holds references into the map's node
set, so nodes and node references are modelled by their id strings. -/

/-- A concept node: id plus mutable optional definition. -/
structure Node where
  id : Str
  definition : Option Str
deriving DecidableEq

/-- A directed edge; source and target are node references, modelled by id. -/
structure Edge where
  source : Str
  target : Str
  relationship : Str
deriving DecidableEq

/-- The derived edge id `` `${source.id}--${relationship}-->${target.id}` ``. -/
def Edge.eid (e : Edge) : Str := e.source ++ ddTok ++ e.relationship ++ daTok ++ e.target

/-- Filtering and navigation state. -/
structure FilterState where
  activeNode : Option Str
  maxDistance : Nat
  selectedNodes : List Str
  bidirectional : Bool
  activeRelationship : Option Str
deriving DecidableEq

/-- Default filter state for new concept maps. -/
def defaultFilterState : FilterState := ⟨none, 2, [], true, none⟩

/-- The concept map: nodes keyed by id, edges keyed by derived id (both in
insertion order, as JavaScript `Map`s iterate), plus the filter state. -/
structure ConceptMap where
  name : Str
  nodes : List Node
  edges : List Edge
  filterState : FilterState
deriving DecidableEq

/-- `new ConceptMap(name)`. -/
def emptyMap (name : Str) : ConceptMap := ⟨name, [], [], defaultFilterState⟩

/-- Update the node with the given id in place (insertion order kept). -/
def setNodeDef (nodes : List Node) (id : Str) (d : Str) : List Node :=
  match nodes with
  | [] => []
  | n :: rest => if n.id = id then ⟨n.id, some d⟩ :: rest else n :: setNodeDef rest id d

/-- `addNode` (concept-map.ts lines 21-34): overwrite the definition of an
existing node when one is provided, else register a new node. -/
def addNode (cm : ConceptMap) (id : Str) (definition : Option Str) : ConceptMap :=
  if (cm.nodes.find? (fun n => n.id = id)).isSome then
    match definition with
    | some d => { cm with nodes := setNodeDef cm.nodes id d }
    | none => cm
  else { cm with nodes := cm.nodes ++ [⟨id, definition⟩] }

/-- Insert an edge keyed by its derived id: replace in place when the id
exists, else append (JavaScript `Map.set`). -/
def edgeSet (edges : List Edge) (e : Edge) : List Edge :=
  match edges with
  | [] => [e]
  | e1 :: rest => if e1.eid = e.eid then e :: rest else e1 :: edgeSet rest e

/-- `addEdge` (concept-map.ts lines 39-43): always construct the edge and set
it under its derived id. -/
def addEdge (cm : ConceptMap) (source target relationship : Str) : ConceptMap :=
  { cm with edges := edgeSet cm.edges ⟨source, target, relationship⟩ }

/-- `getNode(id)`. -/
def getNode (cm : ConceptMap) (id : Str) : Option Node :=
  cm.nodes.find? (fun n => n.id = id)

/-- `getAllNodes()`. -/
def getAllNodes (cm : ConceptMap) : List Node := cm.nodes

/-- `getAllEdges()`. -/
def getAllEdges (cm : ConceptMap) : List Edge := cm.edges

/-- `setActiveNode(node | null)`. -/
def setActiveNode (cm : ConceptMap) (n : Option Str) : ConceptMap :=
  { cm with filterState := { cm.filterState with activeNode := n } }

/-- `addSelectedNode(node)`: adding to a `Set`, a no-op when present. -/
def addSelectedNode (cm : ConceptMap) (n : Str) : ConceptMap :=
  { cm with filterState :=
    { cm.filterState with selectedNodes := insertUniq cm.filterState.selectedNodes n } }

/-- `removeSelectedNode(node)`: `Set.delete`, removing the occurrence. -/
def removeSelectedNode (cm : ConceptMap) (n : Str) : ConceptMap :=
  { cm with filterState :=
    { cm.filterState with selectedNodes := cm.filterState.selectedNodes.erase n } }

/-- `setMaxDistance(d)`: clamps to `Math.max(0, d)`. -/
def setMaxDistance (cm : ConceptMap) (d : Int) : ConceptMap :=
  { cm with filterState := { cm.filterState with maxDistance := d.toNat } }

/-- `setBidirectional(b)`. -/
def setBidirectional (cm : ConceptMap) (b : Bool) : ConceptMap :=
  { cm with filterState := { cm.filterState with bidirectional := b } }

/-- `setActiveRelationship(r | null)`. -/
def setActiveRelationship (cm : ConceptMap) (r : Option Str) : ConceptMap :=
  { cm with filterState := { cm.filterState with activeRelationship := r } }

/-- `getNeighbors` (concept-map.ts lines 190-203): walk all edges, adding the
target of edges out of `nid` and, in bidirectional mode, the source of edges
into `nid`; a `Set` keyed by node, so insertion-ordered and deduplicated. -/
def neighbors (cm : ConceptMap) (nid : Str) (bidi : Bool) : List Str :=
  cm.edges.foldl
    (fun acc e =>
      let acc2 := if e.source = nid then insertUniq acc e.target else acc
      if bidi && e.target = nid then insertUniq acc2 e.source else acc2)
    []

/-- One pass of the inner `for` loop of `calculateDistance` over the popped
node's neighbors: return `.inl (d+1)` as soon as a neighbor equals the goal,
otherwise mark unvisited neighbors visited and enqueue them at `d+1`. -/
def relaxAll (ns : List Str) (goal : Str) (visited : List Str)
    (queue : List (Str × Nat)) (d : Nat) : Sum Nat (List Str × List (Str × Nat)) :=
  match ns with
  | [] => .inr (visited, queue)
  | m :: ms =>
    if m = goal then .inl (d + 1)
    else if m ∈ visited then relaxAll ms goal visited queue d
    else relaxAll ms goal (visited ++ [m]) (queue ++ [(m, d + 1)]) d

/-- The BFS `while` loop of `calculateDistance` (concept-map.ts lines
166-184), with explicit fuel; `none` is the `Infinity` result.  Each loop
iteration pops one queue entry and every enqueued node is fresh, so any fuel
larger than the number of candidate nodes plus queue length never runs out
(proved below for the fuel used by `calculateDistance`). -/
def bfsLoop (cm : ConceptMap) (goal : Str) (bidi : Bool) :
    Nat → List (Str × Nat) → List Str → Option Nat
  | 0, _, _ => none
  | _ + 1, [], _ => none
  | fuel + 1, (n, d) :: queue, visited =>
    match relaxAll (neighbors cm n bidi) goal visited queue d with
    | .inl dist => some dist
    | .inr (visited2, queue2) => bfsLoop cm goal bidi fuel queue2 visited2

/-- `calculateDistance` (concept-map.ts lines 157-185): 0 for equal ids, else
BFS from `fromId`; `none` models `Infinity`. -/
def calculateDistance (cm : ConceptMap) (fromId toId : Str) (bidi : Bool) : Option Nat :=
  if fromId = toId then some 0
  else bfsLoop cm toId bidi (2 * cm.edges.length + 2) [(fromId, 0)] [fromId]

/-- `getDistanceFromActive(node)` (concept-map.ts lines 208-213). -/
def getDistanceFromActive (cm : ConceptMap) (nid : Str) : Option Nat :=
  match cm.filterState.activeNode with
  | none => none
  | some a => calculateDistance cm a nid cm.filterState.bidirectional

/-- The JavaScript comparison `distance <= maxDistance` where `Infinity` is
`none`. -/
def distLe : Option Nat → Nat → Bool
  | none, _ => false
  | some d, m => d ≤ m

/-- The visible-node set accumulated by `getVisibleNodes` before the
active-relationship narrowing (concept-map.ts lines 226-250): the active node
and every registered node within `maxDistance` of it, then every selected
node and its immediate neighbors. -/
def visiblePre (cm : ConceptMap) : List Str :=
  let base :=
    match cm.filterState.activeNode with
    | some a =>
      cm.nodes.foldl
        (fun acc node =>
          if distLe (getDistanceFromActive cm node.id) cm.filterState.maxDistance then
            insertUniq acc node.id
          else acc)
        (insertUniq [] a)
    | none => []
  cm.filterState.selectedNodes.foldl
    (fun acc s =>
      (neighbors cm s cm.filterState.bidirectional).foldl insertUniq (insertUniq acc s))
    base

/-- Endpoints of edges carrying the given relationship, across the whole
graph (concept-map.ts lines 254-261). -/
def relEndpoints (cm : ConceptMap) (r : Str) : List Str :=
  cm.edges.foldl
    (fun acc e =>
      if e.relationship = r then insertUniq (insertUniq acc e.source) e.target else acc)
    []

/-- `getVisibleNodes()` (concept-map.ts lines 218-271).  Note the narrowing
guard is the JavaScript truthiness `if (activeRelationship)`, so the empty
string does not narrow. -/
def getVisibleNodes (cm : ConceptMap) : List Str :=
  if cm.filterState.activeNode = none ∧ cm.filterState.selectedNodes = [] then []
  else
    match cm.filterState.activeRelationship with
    | some r =>
      if r = [] then visiblePre cm
      else (visiblePre cm).filter (fun x => x ∈ relEndpoints cm r)
    | none => visiblePre cm

/-- `getVisibleEdges()` (concept-map.ts lines 276-291). -/
def getVisibleEdges (cm : ConceptMap) : List Edge :=
  let vis := getVisibleNodes cm
  cm.edges.filter
    (fun e =>
      let both := e.source ∈ vis ∧ e.target ∈ vis
      match cm.filterState.activeRelationship with
      | some r => if r = [] then both else both ∧ e.relationship = r
      | none => both)

/-- `ConceptMap.fromParsedDeclarations` (concept-map.ts lines 298-322). -/
def fromParsedDeclarations (name : Str) (parsed : ParsedDeclarations) : ConceptMap :=
  let conceptIds := predConcepts parsed.predicates
  let cm1 := conceptIds.foldl
    (fun cm id => addNode cm id (assocLookup parsed.definitions id)) (emptyMap name)
  parsed.predicates.foldl
    (fun cm p => addEdge cm p.source p.target p.relationship) cm1

/-- The predicate line `` `${source} -- ${relationship} -> ${target}` ``
emitted by `toDSL`. -/
def edgeLine (e : Edge) : Str :=
  e.source ++ (" -- ").data ++ e.relationship ++ (" -> ").data ++ e.target

/-- `toDSL()` (concept-map.ts lines 329-353): predicate lines, a separating
blank when edges exist, then a block per node with a truthy definition, all
joined with newlines and trimmed. -/
def toDSL (cm : ConceptMap) : Str :=
  let predLines := cm.edges.map edgeLine
  let lines1 := if cm.edges.length > 0 then predLines ++ [[]] else predLines
  let defLines := cm.nodes.foldl
    (fun acc n =>
      match n.definition with
      | some d => if d.isEmpty then acc else acc ++ [n.id ++ [':'], d, termTok, []]
      | none => acc)
    []
  trim (joinNl (lines1 ++ defLines))

/-! ## Basic lemmas about the string helpers -/

theorem mem_insertUniq {l : List Str} {x y : Str} :
    x ∈ insertUniq l y ↔ x ∈ l ∨ x = y := by
  unfold insertUniq
  split
  · constructor
    · exact fun h => Or.inl h
    · rintro (h | rfl)
      · exact h
      · assumption
  · simp

theorem insertUniq_nodup {l : List Str} {y : Str} (h : l.Nodup) :
    (insertUniq l y).Nodup := by
  unfold insertUniq
  split
  · exact h
  · rename_i hy
    have hd : l.Disjoint [y] := by
      intro a ha hay
      simp at hay
      subst hay
      exact hy ha
    exact h.append (List.nodup_singleton y) hd

theorem splitFirst_decomp {tok : Str} (htok : tok ≠ []) (s : Str) :
    ∀ a b, splitFirst tok s = some (a, b) → s = a ++ tok ++ b := by
  induction s with
  | nil =>
    intro a b h
    rw [splitFirst, if_neg htok] at h
    exact Option.noConfusion h
  | cons c rest ih =>
    intro a b h
    by_cases hp : tok.isPrefixOf (c :: rest)
    · rw [splitFirst, if_pos hp] at h
      injection h with h1
      injection h1 with ha hb
      subst ha
      subst hb
      rw [List.isPrefixOf_iff_prefix] at hp
      obtain ⟨t, ht⟩ := hp
      have hd : (c :: rest).drop tok.length = t := by
        rw [← ht]; simp
      rw [hd]
      simpa using ht.symm
    · rw [splitFirst, if_neg hp] at h
      rcases hrec : splitFirst tok rest with _ | ⟨a1, b1⟩ <;> rw [hrec] at h
      · exact Option.noConfusion h
      · injection h with h1
        injection h1 with ha hb
        subst ha
        subst hb
        have := ih a1 b1 hrec
        simp [this]

theorem splitFirst_eq_none_iff {tok : Str} (htok : tok ≠ []) (s : Str) :
    splitFirst tok s = none ↔ ∀ a b, s ≠ a ++ tok ++ b := by
  induction s with
  | nil =>
    rw [splitFirst, if_neg htok]
    simp only [true_iff]
    intro a b h
    have hlen := congrArg List.length h
    have hpos : 0 < tok.length := List.length_pos.mpr htok
    simp at hlen
    omega
  | cons c rest ih =>
    by_cases hp : tok.isPrefixOf (c :: rest)
    · rw [splitFirst, if_pos hp]
      constructor
      · intro h; exact Option.noConfusion h
      · intro h
        exfalso
        rw [List.isPrefixOf_iff_prefix] at hp
        obtain ⟨t, ht⟩ := hp
        exact h [] t (by simp [← ht])
    · rw [splitFirst, if_neg hp]
      constructor
      · intro h a b heq
        rcases a with _ | ⟨a0, a2⟩
        · apply hp
          rw [List.isPrefixOf_iff_prefix]
          exact ⟨b, by simpa using heq.symm⟩
        · have heq2 : c = a0 ∧ rest = a2 ++ (tok ++ b) := by
            simpa using heq
          revert h
          rcases hrec : splitFirst tok rest with _ | ⟨a1, b1⟩
          · intro _
            exact (ih.mp hrec) a2 b (by simpa using heq2.2)
          · intro h; simp at h
      · intro h
        rcases hrec : splitFirst tok rest with _ | ⟨a1, b1⟩
        · rfl
        · exfalso
          have h1 : rest = a1 ++ tok ++ b1 := splitFirst_decomp htok rest a1 b1 hrec
          exact h (c :: a1) b1 (by simp [h1])

theorem containsTok_iff {tok : Str} (htok : tok ≠ []) (s : Str) :
    containsTok tok s = true ↔ ∃ a b, s = a ++ tok ++ b := by
  unfold containsTok
  rcases h : splitFirst tok s with _ | ⟨a, b⟩
  · simp only [Option.isSome_none, Bool.false_eq_true, false_iff]
    rintro ⟨a, b, rfl⟩
    exact (splitFirst_eq_none_iff htok _).mp h a b rfl
  · simp only [Option.isSome_some, true_iff]
    exact ⟨a, b, splitFirst_decomp htok s a b h⟩

theorem containsTok_eq_false_iff {tok : Str} (htok : tok ≠ []) (s : Str) :
    containsTok tok s = false ↔ ∀ a b, s ≠ a ++ tok ++ b := by
  rw [← Bool.not_eq_true, containsTok_iff htok]
  push_neg
  rfl

/-! ## Trim lemmas -/

theorem ldrop_cons_ws {c : Char} (hc : isWs c = true) (l : Str) :
    ldrop (c :: l) = ldrop l := by
  simp [ldrop, List.dropWhile, hc]

theorem ldrop_cons_not_ws {c : Char} (hc : isWs c = false) (l : Str) :
    ldrop (c :: l) = c :: l := by
  simp [ldrop, List.dropWhile, hc]

theorem rdrop_append_ws {c : Char} (hc : isWs c = true) (l : Str) :
    rdrop (l ++ [c]) = rdrop l := by
  simp [rdrop, List.dropWhile, hc]

theorem rdrop_append_not_ws {c : Char} (hc : isWs c = false) (l : Str) :
    rdrop (l ++ [c]) = l ++ [c] := by
  simp [rdrop, List.dropWhile, hc]

theorem ldrop_append (l m : Str) :
    ldrop (l ++ m) = if ldrop l = [] then ldrop m else ldrop l ++ m := by
  induction l with
  | nil => simp [ldrop]
  | cons c l ih =>
    by_cases hc : isWs c
    · rw [List.cons_append, ldrop_cons_ws hc, ldrop_cons_ws hc, ih]
    · rw [List.cons_append, ldrop_cons_not_ws (by simpa using hc),
        ldrop_cons_not_ws (by simpa using hc)]
      simp

theorem trim_cons_ws {c : Char} (hc : isWs c = true) (l : Str) :
    trim (c :: l) = trim l := by
  rw [trim, trim, ldrop_cons_ws hc]

theorem trim_append_ws {c : Char} (hc : isWs c = true) (l : Str) :
    trim (l ++ [c]) = trim l := by
  rw [trim, trim, ldrop_append]
  split
  · rename_i h0
    rw [h0]
    simp [ldrop, List.dropWhile, hc, rdrop]
  · rw [rdrop_append_ws hc]

theorem ldrop_head_not_ws {l : Str} {c : Char} {cs : Str} (h : ldrop l = c :: cs) :
    isWs c = false := by
  induction l with
  | nil => simp [ldrop] at h
  | cons c0 l ih =>
    by_cases hc : isWs c0
    · rw [ldrop_cons_ws hc] at h
      exact ih h
    · rw [ldrop_cons_not_ws (by simpa using hc)] at h
      injection h with h1 _
      subst h1
      simpa using hc

theorem rdrop_isPrefix (l : Str) : rdrop l <+: l := by
  have h : (l.reverse.dropWhile isWs) <:+ l.reverse := List.dropWhile_suffix isWs
  have h2 : (l.reverse.dropWhile isWs).reverse <+: l.reverse.reverse :=
    List.reverse_prefix.mpr h
  simpa [rdrop] using h2

theorem rdrop_eq_reverse_ldrop (l : Str) : rdrop l = (ldrop l.reverse).reverse := rfl

theorem rdrop_getLast_not_ws {l : Str} {c : Char} (h : (rdrop l).getLast? = some c) :
    isWs c = false := by
  rw [rdrop_eq_reverse_ldrop, List.getLast?_reverse] at h
  rcases he : ldrop l.reverse with _ | ⟨c0, cs⟩
  · rw [he] at h; exact Option.noConfusion h
  · rw [he] at h
    simp at h
    subst h
    exact ldrop_head_not_ws he

theorem trim_head_not_ws {l : Str} {c : Char} {cs : Str} (h : trim l = c :: cs) :
    isWs c = false := by
  rw [trim] at h
  obtain ⟨t, ht⟩ := rdrop_isPrefix (ldrop l)
  rw [h] at ht
  exact ldrop_head_not_ws ht.symm

theorem trim_getLast_not_ws {l : Str} {c : Char} (h : (trim l).getLast? = some c) :
    isWs c = false := rdrop_getLast_not_ws h

theorem rdrop_eq_self {l : Str} (h : ∀ c, l.getLast? = some c → isWs c = false) :
    rdrop l = l := by
  rw [rdrop_eq_reverse_ldrop]
  rcases he : l.reverse with _ | ⟨c, cs⟩
  · have : l = [] := by simpa using congrArg List.reverse he
    simp [this, ldrop]
  · have hlast : l.getLast? = some c := by
      rw [← List.head?_reverse, he]; rfl
    rw [ldrop_cons_not_ws (h c hlast)]
    rw [← he]
    simp

theorem trim_eq_self {l : Str} (h1 : ∀ c, l.head? = some c → isWs c = false)
    (h2 : ∀ c, l.getLast? = some c → isWs c = false) : trim l = l := by
  rcases l with _ | ⟨c, cs⟩
  · rfl
  · rw [trim, ldrop_cons_not_ws (h1 c rfl)]
    exact rdrop_eq_self h2

theorem trim_idem (l : Str) : trim (trim l) = trim l := by
  apply trim_eq_self
  · intro c hc
    rcases he : trim l with _ | ⟨c0, cs⟩
    · rw [he] at hc; exact Option.noConfusion hc
    · rw [he] at hc
      simp at hc
      subst hc
      exact trim_head_not_ws he
  · intro c hc
    exact trim_getLast_not_ws hc

/-! ## Split and join lemmas -/

theorem splitLines_no_nl {l : Str} (h : ('\n') ∉ l) : splitLines l = [l] := by
  induction l with
  | nil => rfl
  | cons c rest ih =>
    have hc : ¬ c = '\n' := fun hc => h (by simp [hc])
    have hrest : ('\n') ∉ rest := fun hr => h (by simp [hr])
    rw [splitLines]
    simp only [if_neg hc, ih hrest]

theorem splitLines_append_nl {l : Str} (h : ('\n') ∉ l) (rest : Str) :
    splitLines (l ++ '\n' :: rest) = l :: splitLines rest := by
  induction l with
  | nil =>
    simp only [List.nil_append]
    rw [splitLines]
    simp
  | cons c l2 ih =>
    have hc : ¬ c = '\n' := fun hc => h (by simp [hc])
    have hl2 : ('\n') ∉ l2 := fun hr => h (by simp [hr])
    rw [List.cons_append, splitLines]
    simp only [if_neg hc, ih hl2]

theorem splitLines_joinNl {L : List Str} (h : ∀ l ∈ L, ('\n') ∉ l) (hL : L ≠ []) :
    splitLines (joinNl L) = L := by
  induction L with
  | nil => exact absurd rfl hL
  | cons l L2 ih =>
    rcases L2 with _ | ⟨l2, L3⟩
    · exact splitLines_no_nl (h l (by simp))
    · rw [joinNl, splitLines_append_nl (h l (by simp))]
      rw [ih (fun x hx => h x (List.mem_cons_of_mem _ hx)) (by simp)]

theorem joinNl_cons_cons (l l2 : Str) (ls : List Str) :
    joinNl (l :: l2 :: ls) = l ++ '\n' :: joinNl (l2 :: ls) := rfl

theorem joinNl_append_nil {L : List Str} (hL : L ≠ []) :
    joinNl (L ++ [[]]) = joinNl L ++ ['\n'] := by
  induction L with
  | nil => exact absurd rfl hL
  | cons l L2 ih =>
    rcases L2 with _ | ⟨l2, L3⟩
    · rfl
    · have ih2 := ih (by simp)
      rw [List.cons_append] at ih2
      rw [List.cons_append, List.cons_append, joinNl_cons_cons, ih2, joinNl_cons_cons]
      simp

theorem containsTok_mono {tok s t : Str} (htok : tok ≠ []) (hst : s <:+: t)
    (h : containsTok tok s = true) : containsTok tok t = true := by
  rw [containsTok_iff htok] at h ⊢
  obtain ⟨a, b, rfl⟩ := h
  obtain ⟨u, v, rfl⟩ := hst
  exact ⟨u ++ a, b ++ v, by simp⟩

theorem ldrop_suffix (l : Str) : ldrop l <:+ l := List.dropWhile_suffix isWs

theorem trim_isInfix (l : Str) : trim l <:+: l :=
  ((rdrop_isPrefix (ldrop l)).isInfix).trans (ldrop_suffix l).isInfix

/-! ## Dedup lemmas (claims C7, C8, C9) -/

theorem mem_dedupPreds_iff {ps : List Predicate} {q : Predicate} :
    q ∈ dedupPreds ps ↔
      ∃ i, ∃ hi : i < ps.length, ps[i] = q ∧
        ∀ j, ∀ hj : j < i, predKey (ps.get ⟨j, by omega⟩) ≠ predKey q := by
  unfold dedupPreds
  rw [List.mem_map]
  constructor
  · rintro ⟨⟨i, x⟩, hmem, rfl⟩
    rw [List.mem_filter] at hmem
    obtain ⟨henum, hP⟩ := hmem
    rw [List.mk_mem_enum_iff_get?, List.get?_eq_some] at henum
    obtain ⟨hi, hx⟩ := henum
    simp only [decide_eq_true_eq] at hP
    rw [List.findIdx_eq hi] at hP
    refine ⟨i, hi, by simpa using hx, fun j hj => ?_⟩
    have := hP.2 j hj
    simpa using this
  · rintro ⟨i, hi, rfl, hfirst⟩
    refine ⟨(i, ps[i]), ?_, rfl⟩
    rw [List.mem_filter]
    constructor
    · rw [List.mk_mem_enum_iff_get?, List.get?_eq_some]
      exact ⟨hi, by simp⟩
    · simp only [decide_eq_true_eq]
      rw [List.findIdx_eq hi]
      refine ⟨by simp, fun j hj => ?_⟩
      simpa using hfirst j hj

theorem dedupPreds_sublist (ps : List Predicate) : (dedupPreds ps).Sublist ps := by
  unfold dedupPreds
  have h1 := (List.filter_sublist (l := ps.enum)
    (p := fun q => ps.findIdx (fun r => predKey r = predKey q.2) = q.1)).map Prod.snd
  rw [List.enum_map_snd] at h1
  exact h1

theorem dedupPreds_keys_pairwise (ps : List Predicate) :
    (dedupPreds ps).Pairwise (fun a b => predKey a ≠ predKey b) := by
  unfold dedupPreds
  rw [List.pairwise_map]
  have hlt : ps.enum.Pairwise (fun a b => a.1 < b.1) := by
    have h1 : (List.map Prod.fst ps.enum).Pairwise (fun a b => a < b) := by
      rw [List.enum_map_fst]
      exact List.pairwise_lt_range _
    rwa [List.pairwise_map] at h1
  have hfil := hlt.filter (fun q => ps.findIdx (fun r => predKey r = predKey q.2) = q.1)
  refine hfil.imp_of_mem ?_
  intro a b ha hb hab
  rw [List.mem_filter] at ha hb
  have hPa := ha.2
  have hPb := hb.2
  simp only [decide_eq_true_eq] at hPa hPb
  intro hkey
  rw [hkey] at hPa
  rw [hPa] at hPb
  omega

theorem dedupPreds_complete {ps : List Predicate} {p : Predicate} (hp : p ∈ ps) :
    ∃ q ∈ dedupPreds ps, predKey q = predKey p := by
  have hex : ∃ x ∈ ps, (fun r => decide (predKey r = predKey p)) x = true :=
    ⟨p, hp, by simp⟩
  have hlt := List.findIdx_lt_length_of_exists hex
  set i := ps.findIdx (fun r => decide (predKey r = predKey p)) with hidef
  have hkey : predKey ps[i] = predKey p := by
    have := List.findIdx_getElem (w := hlt)
    simpa using this
  refine ⟨ps[i], ?_, hkey⟩
  rw [mem_dedupPreds_iff]
  refine ⟨i, hlt, rfl, fun j hj hcontra => ?_⟩
  rw [hkey] at hcontra
  have hfi : ps.findIdx (fun r => decide (predKey r = predKey p)) = i := hidef.symm
  rw [List.findIdx_eq hlt] at hfi
  have := hfi.2 j hj
  simp at this
  exact this hcontra

theorem dedupPreds_eq_self {ps : List Predicate}
    (h : ps.Pairwise (fun a b => predKey a ≠ predKey b)) : dedupPreds ps = ps := by
  unfold dedupPreds
  have hfil : ps.enum.filter (fun q => ps.findIdx (fun r => predKey r = predKey q.2) = q.1)
      = ps.enum := by
    rw [List.filter_eq_self]
    intro x hx
    rcases x with ⟨i, x⟩
    rw [List.mk_mem_enum_iff_get?, List.get?_eq_some] at hx
    obtain ⟨hi, hx⟩ := hx
    simp only [decide_eq_true_eq]
    rw [List.findIdx_eq hi]
    have hxi : ps[i] = x := by simpa using hx
    refine ⟨by simp [hxi], fun j hj => ?_⟩
    rw [List.pairwise_iff_getElem] at h
    have := h j i (by omega) hi hj
    rw [hxi] at this
    simpa using this
  rw [hfil, List.enum_map_snd]

/-! ## Claim C10: navigation operations never touch the graph, graph
mutations never touch the filter state -/

/-- C10: each navigation/filter-state operation (`setActiveNode`,
`addSelectedNode`, `removeSelectedNode`, `setMaxDistance`,
`setBidirectional`, `setActiveRelationship`) leaves the node and edge sets
returned by `getAllNodes`/`getAllEdges` unchanged, and the graph mutations
`addNode` and `addEdge` leave the whole `FilterState` (hence each of its
components `activeNode`, `maxDistance`, `selectedNodes`, `bidirectional`,
`activeRelationship`) unchanged. -/
theorem navigation_and_mutation_frame :
    (∀ cm n, getAllNodes (setActiveNode cm n) = getAllNodes cm ∧
      getAllEdges (setActiveNode cm n) = getAllEdges cm) ∧
    (∀ cm n, getAllNodes (addSelectedNode cm n) = getAllNodes cm ∧
      getAllEdges (addSelectedNode cm n) = getAllEdges cm) ∧
    (∀ cm n, getAllNodes (removeSelectedNode cm n) = getAllNodes cm ∧
      getAllEdges (removeSelectedNode cm n) = getAllEdges cm) ∧
    (∀ cm d, getAllNodes (setMaxDistance cm d) = getAllNodes cm ∧
      getAllEdges (setMaxDistance cm d) = getAllEdges cm) ∧
    (∀ cm b, getAllNodes (setBidirectional cm b) = getAllNodes cm ∧
      getAllEdges (setBidirectional cm b) = getAllEdges cm) ∧
    (∀ cm r, getAllNodes (setActiveRelationship cm r) = getAllNodes cm ∧
      getAllEdges (setActiveRelationship cm r) = getAllEdges cm) ∧
    (∀ cm id d, (addNode cm id d).filterState = cm.filterState) ∧
    (∀ cm s t r, (addEdge cm s t r).filterState = cm.filterState) := by
  refine ⟨fun _ _ => ⟨rfl, rfl⟩, fun _ _ => ⟨rfl, rfl⟩, fun _ _ => ⟨rfl, rfl⟩,
    fun _ _ => ⟨rfl, rfl⟩, fun _ _ => ⟨rfl, rfl⟩, fun _ _ => ⟨rfl, rfl⟩,
    fun cm id d => ?_, fun _ _ _ _ => rfl⟩
  unfold addNode
  split
  · rcases d <;> rfl
  · rfl

/-! ## Claim C7: predicate dedup

The dedup key is the string `source ++ "--" ++ relationship ++ "-->" ++
target`.  Equal triples always share a key, but the key is not injective on
triples: `("A-", "r", "B")` and `("A", "-r", "B")` collide, and both are
accepted by `parsePredicate` (a field may contain single dashes).  The source
deduplicates by key, so such distinct triples are also collapsed. -/

/-- The C7 collision input: two predicates with distinct
(source, relationship, target) triples but equal dedup keys. -/
def c7Collision : Str := ("A- -- r -> B\nA -- -r -> B").data

/-- C7 counterexample: both lines of `c7Collision` are valid predicates with
distinct triples, the parse succeeds, yet only the first survives — the
returned sequence does not retain the first occurrence of each distinct
triple, refuting the claim that predicates are deduplicated exactly by
triple equality. -/
theorem dedup_key_collision_drops_distinct_triple :
    parsePredicate (("A- -- r -> B").data) =
      .ok ⟨("A-").data, ("r").data, ("B").data⟩ ∧
    parsePredicate (("A -- -r -> B").data) =
      .ok ⟨("A").data, ("-r").data, ("B").data⟩ ∧
    (⟨("A-").data, ("r").data, ("B").data⟩ : Predicate) ≠
      ⟨("A").data, ("-r").data, ("B").data⟩ ∧
    (parseDSL c7Collision).errors = [] ∧
    (parseDSL c7Collision).predicates = [⟨("A-").data, ("r").data, ("B").data⟩] := by
  refine ⟨rfl, rfl, by decide, rfl, rfl⟩

/-- The r1/r2 multi-relationship input of the claim. -/
def c7TwoRel : Str := ("A -- r1 -> B\nA -- r2 -> B").data

/-- C7 amended: the returned predicates sequence contains no two predicates
with equal dedup keys; it is a subsequence of the scanned predicates in
encounter order; an element survives exactly when it is the first occurrence
of its key; every scanned predicate is represented by a same-key survivor;
predicates with equal triples always have equal keys (so exact repeats are
dropped, though distinct triples with colliding keys are collapsed too); and
the r1/r2 example yields two distinct predicates and, after
`fromParsedDeclarations`, two distinct edges with ids `A--r1-->B` and
`A--r2-->B`. -/
theorem dedup_is_by_key_first_occurrence :
    (∀ text, ((parseDSL text).predicates).Pairwise (fun a b => predKey a ≠ predKey b)) ∧
    (∀ ps : List Predicate, (dedupPreds ps).Sublist ps) ∧
    (∀ (ps : List Predicate) (q : Predicate),
      q ∈ dedupPreds ps ↔
        ∃ i, ∃ hi : i < ps.length, ps[i] = q ∧
          ∀ j, ∀ hj : j < i, predKey (ps.get ⟨j, by omega⟩) ≠ predKey q) ∧
    (∀ (ps : List Predicate) (p : Predicate), p ∈ ps →
      ∃ q ∈ dedupPreds ps, predKey q = predKey p) ∧
    (∀ p q : Predicate, p.source = q.source → p.relationship = q.relationship →
      p.target = q.target → predKey p = predKey q) ∧
    (parseDSL c7TwoRel).predicates =
      [⟨("A").data, ("r1").data, ("B").data⟩, ⟨("A").data, ("r2").data, ("B").data⟩] ∧
    (fromParsedDeclarations ("m").data (parseDSL c7TwoRel)).edges.map Edge.eid =
      [("A--r1-->B").data, ("A--r2-->B").data] := by
  refine ⟨?_, dedupPreds_sublist, fun ps q => mem_dedupPreds_iff,
    fun ps p hp => dedupPreds_complete hp, ?_, rfl, rfl⟩
  · intro text
    unfold parseDSL
    rcases parseLoop (splitLines text).length (splitLines text) 0 [] [] with e | ⟨preds, defs⟩
    · exact List.Pairwise.nil
    · exact dedupPreds_keys_pairwise preds
  · intro p q h1 h2 h3
    simp [predKey, h1, h2, h3]

/-- Witness for C7 at concrete inputs: the completeness part applied to a
list with an exact repeat, and the equal-triples-equal-keys part. -/
theorem dedup_is_by_key_first_occurrence_witness :
    (∃ q ∈ dedupPreds [⟨("A").data, ("r").data, ("B").data⟩,
        ⟨("A").data, ("r").data, ("B").data⟩],
      predKey q = predKey ⟨("A").data, ("r").data, ("B").data⟩) ∧
    predKey ⟨("A").data, ("rel").data, ("B").data⟩ =
      predKey ⟨("A").data, ("rel").data, ("B").data⟩ := by
  constructor
  · exact dedup_is_by_key_first_occurrence.2.2.2.1 _ _ (by decide)
  · exact dedup_is_by_key_first_occurrence.2.2.2.2.1 _ _ rfl rfl rfl

/-! ## Claim C5: predicate line recognition -/

/-- C5: a line is accepted as a predicate iff it contains no newline,
splitting it at the first `--` and then at the first following `->` succeeds,
and the three fields are, after trimming, non-empty and free of `--`, `->`
and newlines; on acceptance the predicate is exactly the three trimmed
fields.  Otherwise, when such a line (non-blank, not a definition header) is
reached by the scanning loop, the parse fails with a single syntax error at
that line. -/
theorem predicate_line_accepted_iff :
    (∀ (line : Str) (p : Predicate),
      parsePredicate line = .ok p ↔
        (containsTok nlTok line = false ∧
         ∃ rawS r1 rawR rawT,
           splitFirst ddTok line = some (rawS, r1) ∧
           splitFirst arTok r1 = some (rawR, rawT) ∧
           trim rawS ≠ [] ∧ trim rawR ≠ [] ∧ trim rawT ≠ [] ∧
           containsTok ddTok (trim rawS) = false ∧ containsTok arTok (trim rawS) = false ∧
           containsTok nlTok (trim rawS) = false ∧
           containsTok ddTok (trim rawR) = false ∧ containsTok arTok (trim rawR) = false ∧
           containsTok nlTok (trim rawR) = false ∧
           containsTok ddTok (trim rawT) = false ∧ containsTok arTok (trim rawT) = false ∧
           containsTok nlTok (trim rawT) = false ∧
           p = ⟨trim rawS, trim rawR, trim rawT⟩)) ∧
    (∀ (fuel : Nat) (l : Str) (ls : List Str) (i : Nat) (preds : List Predicate)
        (defs : List (Str × Str)) (k : PredErr),
      trim l ≠ [] → endsColon (trim l) = false → parsePredicate (trim l) = .error k →
      parseLoop (fuel + 1) (l :: ls) i preds defs =
        .error ⟨i + 1, 1, .predErr k, .synKind⟩) := by
  constructor
  · intro line p
    constructor
    · intro h
      unfold parsePredicate at h
      rcases hnl : containsTok nlTok line with _ | _
      case true => rw [hnl] at h; simp at h
      rcases h1 : splitFirst ddTok line with _ | ⟨rawS, r1⟩
      · simp [hnl, h1] at h
      rcases h2 : splitFirst arTok r1 with _ | ⟨rawR, rawT⟩
      · simp [hnl, h1, h2] at h
      simp only [hnl, h1, h2, Bool.false_eq_true, if_false] at h
      have hSs : rawS <:+: line := by
        have := splitFirst_decomp (by decide) line rawS r1 h1
        exact ⟨[], ddTok ++ r1, by simp [this]⟩
      have hr1 : r1 <:+: line := by
        have := splitFirst_decomp (by decide) line rawS r1 h1
        exact ⟨rawS ++ ddTok, [], by simp [this]⟩
      have hRr : rawR <:+: line := by
        have hd := splitFirst_decomp (by decide) r1 rawR rawT h2
        exact List.IsInfix.trans (⟨[], arTok ++ rawT, by simp [hd]⟩ : rawR <:+: r1) hr1
      have hTr : rawT <:+: line := by
        have hd := splitFirst_decomp (by decide) r1 rawR rawT h2
        exact List.IsInfix.trans (⟨rawR ++ arTok, [], by simp [hd]⟩ : rawT <:+: r1) hr1
      have hnlS : containsTok nlTok (trim rawS) = false := by
        rcases hc : containsTok nlTok (trim rawS) with _ | _
        · rfl
        · rw [containsTok_mono (by decide) ((trim_isInfix rawS).trans hSs) hc] at hnl
          exact Bool.noConfusion hnl
      have hnlR : containsTok nlTok (trim rawR) = false := by
        rcases hc : containsTok nlTok (trim rawR) with _ | _
        · rfl
        · rw [containsTok_mono (by decide) ((trim_isInfix rawR).trans hRr) hc] at hnl
          exact Bool.noConfusion hnl
      have hnlT : containsTok nlTok (trim rawT) = false := by
        rcases hc : containsTok nlTok (trim rawT) with _ | _
        · rfl
        · rw [containsTok_mono (by decide) ((trim_isInfix rawT).trans hTr) hc] at hnl
          exact Bool.noConfusion hnl
      split_ifs at h with c1 c2 c3 c4
      simp only [Bool.or_eq_true, decide_eq_true_eq, not_or] at c1 c2 c3 c4
      simp only [Bool.not_eq_true] at c2 c3 c4
      injection h with hp
      exact ⟨rfl, rawS, r1, rawR, rawT, rfl, h2, c1.1.1, c1.1.2, c1.2,
        c2.1, c2.2, hnlS, c3.1, c3.2, hnlR, c4.1, c4.2, hnlT, hp.symm⟩
    · rintro ⟨hnl, rawS, r1, rawR, rawT, h1, h2, heS, heR, heT,
        hdS, haS, _, hdR, haR, _, hdT, haT, _, rfl⟩
      unfold parsePredicate
      simp only [hnl, h1, h2, Bool.false_eq_true, if_false]
      simp [heS, heR, heT, hdS, haS, hdR, haR, hdT, haT]
  · intro fuel l ls i preds defs k hb hc hk
    simp only [parseLoop]
    rw [if_neg hb, hc, hk]
    simp

/-- Witness for C5 at concrete inputs: the acceptance direction on
`a -- r -> b` and the failure direction on the separator-free line `x`. -/
theorem predicate_line_accepted_iff_witness :
    parsePredicate (("a -- r -> b").data) = .ok ⟨("a").data, ("r").data, ("b").data⟩ ∧
    parseLoop 1 [("x").data] 0 [] [] =
      .error ⟨1, 1, .predErr .noSeparators, .synKind⟩ := by
  constructor
  · exact (predicate_line_accepted_iff.1 (("a -- r -> b").data)
      ⟨("a").data, ("r").data, ("b").data⟩).mpr
      ⟨by decide, ("a ").data, (" r -> b").data, (" r ").data, (" b").data,
        by decide, by decide, by decide, by decide, by decide, by decide, by decide,
        by decide, by decide, by decide, by decide, by decide, by decide, by decide,
        by decide⟩
  · exact predicate_line_accepted_iff.2 0 (("x").data) [] 0 [] [] .noSeparators
      (by decide) (by decide) rfl

/-! ## Claim C6: duplicate definitions

The intended rule (source comment at parser.ts line 86, the kanban
acceptance criterion and the duplicate-definition test) is that a second
definition header for an already-defined concept fails the parse.  The code
guards with the JavaScript truthiness `if (definitions[conceptName])`, so a
first definition whose body is empty escapes detection and the later
definition silently overwrites it. -/

/-- The C6 failing input: a first, empty-bodied definition of `A` followed by
a second definition of `A`. -/
def c6Input : Str := ("A:\n---\nA:\nx\n---").data

/-- C6 divergence witness: on `c6Input` the parse succeeds (no errors), and
the second definition for `A` has silently overwritten the first (its body is
now `x`), although both definition blocks are well-formed definitions for the
same concept id. -/
theorem duplicate_definition_with_empty_body_is_accepted :
    (parseDSL c6Input).errors = [] ∧
    (parseDSL c6Input).definitions = [(("A").data, ("x").data)] ∧
    (parseDSL c6Input).predicates = [] := by
  refine ⟨?_, ?_, ?_⟩ <;> rfl

/-! ## Warning lemmas (claim C9) -/

theorem assocLookup_isSome_iff {m : List (Str × Str)} {c : Str} :
    (assocLookup m c).isSome = true ↔ c ∈ m.map Prod.fst := by
  induction m with
  | nil => simp [assocLookup]
  | cons kv rest ih =>
    rcases kv with ⟨k, v⟩
    rw [assocLookup]
    by_cases hk : k = c
    · subst hk
      simp
    · rw [if_neg hk, ih]
      simp only [List.map_cons, List.mem_cons]
      constructor
      · exact fun h => Or.inr h
      · rintro (h | h)
        · exact absurd h.symm hk
        · exact h

theorem mem_foldl_insert2 {x : Str} (ps : List Predicate) (acc : List Str) :
    x ∈ ps.foldl (fun a p => insertUniq (insertUniq a p.source) p.target) acc ↔
      x ∈ acc ∨ ∃ p ∈ ps, p.source = x ∨ p.target = x := by
  induction ps generalizing acc with
  | nil => simp
  | cons p ps ih =>
    rw [List.foldl_cons, ih]
    simp only [mem_insertUniq]
    constructor
    · rintro (((h | h) | h) | ⟨q, hq, hor⟩)
      · exact Or.inl h
      · exact Or.inr ⟨p, by simp, Or.inl h.symm⟩
      · exact Or.inr ⟨p, by simp, Or.inr h.symm⟩
      · exact Or.inr ⟨q, by simp [hq], hor⟩
    · rintro (h | ⟨q, hq, hor⟩)
      · exact Or.inl (Or.inl (Or.inl h))
      · rcases List.mem_cons.mp hq with rfl | hq2
        · rcases hor with h | h
          · exact Or.inl (Or.inl (Or.inr h.symm))
          · exact Or.inl (Or.inr h.symm)
        · exact Or.inr ⟨q, hq2, hor⟩

theorem mem_predConcepts_iff {ps : List Predicate} {c : Str} :
    c ∈ predConcepts ps ↔ ∃ p ∈ ps, p.source = c ∨ p.target = c := by
  rw [predConcepts, mem_foldl_insert2]
  simp

theorem foldl_insert2_nodup (ps : List Predicate) (acc : List Str) (h : acc.Nodup) :
    (ps.foldl (fun a p => insertUniq (insertUniq a p.source) p.target) acc).Nodup := by
  induction ps generalizing acc with
  | nil => simpa
  | cons p ps ih => exact ih _ (insertUniq_nodup (insertUniq_nodup h))

theorem predConcepts_nodup (ps : List Predicate) : (predConcepts ps).Nodup :=
  foldl_insert2_nodup ps [] List.nodup_nil

theorem mapSet_keys (m : List (Str × Str)) (k v : Str) :
    (mapSet m k v).map Prod.fst =
      if k ∈ m.map Prod.fst then m.map Prod.fst else m.map Prod.fst ++ [k] := by
  induction m with
  | nil => simp [mapSet]
  | cons kv rest ih =>
    rcases kv with ⟨k1, v1⟩
    rw [mapSet]
    by_cases hk : k1 = k
    · subst hk
      simp
    · rw [if_neg hk]
      simp only [List.map_cons, ih]
      by_cases hmem : k ∈ rest.map Prod.fst
      · rw [if_pos hmem, if_pos (by simp [hmem])]
      · rw [if_neg hmem, if_neg (by simp [hmem, Ne.symm hk])]
        simp

theorem mapSet_keys_nodup {m : List (Str × Str)} {k v : Str}
    (h : (m.map Prod.fst).Nodup) : ((mapSet m k v).map Prod.fst).Nodup := by
  rw [mapSet_keys]
  split
  · exact h
  · rename_i hk
    have hd : (m.map Prod.fst).Disjoint [k] := by
      intro a ha hak
      simp at hak
      subst hak
      exact hk ha
    exact h.append (List.nodup_singleton k) hd

theorem parseLoop_ok_defs_nodup (fuel : Nat) (rem : List Str) (i : Nat)
    (preds : List Predicate) (defs : List (Str × Str))
    (p : List Predicate) (d : List (Str × Str))
    (h : parseLoop fuel rem i preds defs = .ok (p, d))
    (hnd : (defs.map Prod.fst).Nodup) : (d.map Prod.fst).Nodup := by
  induction fuel generalizing rem i preds defs with
  | zero =>
    cases rem <;>
      · rw [parseLoop] at h
        injection h with h1
        injection h1 with _ h2
        subst h2
        exact hnd
  | succ fuel ih =>
    cases rem with
    | nil =>
      rw [parseLoop] at h
      injection h with h1
      injection h1 with _ h2
      subst h2
      exact hnd
    | cons l ls =>
      rw [parseLoop] at h
      by_cases hb : trim l = []
      · rw [if_pos hb] at h
        exact ih ls (i + 1) preds defs h hnd
      rw [if_neg hb] at h
      by_cases hc : endsColon (trim l)
      · rw [if_pos hc] at h
        by_cases he : trim (trim l).dropLast = []
        · rw [if_pos he] at h
          exact Except.noConfusion h
        rw [if_neg he] at h
        by_cases hdup : truthyStr (assocLookup defs (trim (trim l).dropLast))
        · rw [if_pos hdup] at h
          exact Except.noConfusion h
        rw [if_neg hdup] at h
        rcases hs : scanBody ls with ⟨body, rest⟩
        rw [hs] at h
        rcases rest with _ | ⟨t, after⟩
        · exact Except.noConfusion h
        · exact ih after _ preds _ h (mapSet_keys_nodup hnd)
      · rw [if_neg hc] at h
        rcases hp : parsePredicate (trim l) with k | q <;> rw [hp] at h
        · exact Except.noConfusion h
        · exact ih ls (i + 1) (preds ++ [q]) defs h hnd

theorem count_orphan_aux (ks : List Str) (used : List Str) (c : Str) (h : ks.Nodup) :
    ((ks.filterMap (fun c0 => if c0 ∈ used then none
        else some (⟨1, 1, .orphanedDefinition, c0⟩ : ParseWarning))).count
      ⟨1, 1, .orphanedDefinition, c⟩) =
      if c ∈ ks ∧ c ∉ used then 1 else 0 := by
  induction ks with
  | nil => simp
  | cons k ks ih =>
    obtain ⟨hknot, hknd⟩ := List.nodup_cons.mp h
    rw [List.filterMap_cons]
    have hmemiff : ¬ c = k → ((c ∈ k :: ks ∧ c ∉ used) ↔ (c ∈ ks ∧ c ∉ used)) := by
      intro hc
      constructor
      · rintro ⟨hm, hu⟩
        rcases List.mem_cons.mp hm with h1 | h1
        · exact absurd h1 hc
        · exact ⟨h1, hu⟩
      · rintro ⟨hm, hu⟩
        exact ⟨List.mem_cons_of_mem _ hm, hu⟩
    by_cases hku : k ∈ used
    · rw [if_pos hku, ih hknd]
      by_cases hc : c = k
      · subst hc
        rw [if_neg (show ¬(c ∈ ks ∧ c ∉ used) from fun hx => hx.2 hku),
          if_neg (show ¬(c ∈ c :: ks ∧ c ∉ used) from fun hx => hx.2 hku)]
      · rw [if_congr (hmemiff hc) rfl rfl]
    · rw [if_neg hku, List.count_cons, ih hknd]
      by_cases hc : c = k
      · subst hc
        rw [if_neg (show ¬(c ∈ ks ∧ c ∉ used) from fun hx => hknot hx.1),
          if_pos (show c ∈ c :: ks ∧ c ∉ used from ⟨List.mem_cons_self c ks, hku⟩)]
        simp
      · have hbeq : ((⟨1, 1, WarnType.orphanedDefinition, k⟩ : ParseWarning) ==
            ⟨1, 1, WarnType.orphanedDefinition, c⟩) = false := by
          simp [beq_eq_false_iff_ne]
          intro h1
          exact hc h1.symm
        rw [hbeq, if_congr (hmemiff hc) rfl rfl]
        simp

theorem count_missing_aux (used : List Str) (defs : List (Str × Str)) (c : Str)
    (h : used.Nodup) :
    ((used.filterMap (fun c0 => if (assocLookup defs c0).isSome then none
        else some (⟨1, 1, .missingDefinition, c0⟩ : ParseWarning))).count
      ⟨1, 1, .missingDefinition, c⟩) =
      if c ∈ used ∧ (assocLookup defs c).isSome = false then 1 else 0 := by
  induction used with
  | nil => simp
  | cons k ks ih =>
    obtain ⟨hknot, hknd⟩ := List.nodup_cons.mp h
    rw [List.filterMap_cons]
    have hmemiff : ¬ c = k →
        ((c ∈ k :: ks ∧ (assocLookup defs c).isSome = false) ↔
          (c ∈ ks ∧ (assocLookup defs c).isSome = false)) := by
      intro hc
      constructor
      · rintro ⟨hm, hu⟩
        rcases List.mem_cons.mp hm with h1 | h1
        · exact absurd h1 hc
        · exact ⟨h1, hu⟩
      · rintro ⟨hm, hu⟩
        exact ⟨List.mem_cons_of_mem _ hm, hu⟩
    by_cases hku : (assocLookup defs k).isSome = true
    · rw [if_pos hku, ih hknd]
      by_cases hc : c = k
      · subst hc
        rw [if_neg (show ¬(c ∈ ks ∧ (assocLookup defs c).isSome = false) from
            fun hx => by rw [hku] at hx; exact Bool.noConfusion hx.2),
          if_neg (show ¬(c ∈ c :: ks ∧ (assocLookup defs c).isSome = false) from
            fun hx => by rw [hku] at hx; exact Bool.noConfusion hx.2)]
      · rw [if_congr (hmemiff hc) rfl rfl]
    · rw [if_neg hku, List.count_cons, ih hknd]
      have hkf : (assocLookup defs k).isSome = false := by
        rcases hx : (assocLookup defs k).isSome with _ | _
        · rfl
        · exact absurd hx hku
      by_cases hc : c = k
      · subst hc
        rw [if_neg (show ¬(c ∈ ks ∧ (assocLookup defs c).isSome = false) from
            fun hx => hknot hx.1),
          if_pos (show c ∈ c :: ks ∧ (assocLookup defs c).isSome = false from
            ⟨List.mem_cons_self c ks, hkf⟩)]
        simp
      · have hbeq : ((⟨1, 1, WarnType.missingDefinition, k⟩ : ParseWarning) ==
            ⟨1, 1, WarnType.missingDefinition, c⟩) = false := by
          simp [beq_eq_false_iff_ne]
          intro h1
          exact hc h1.symm
        rw [hbeq, if_congr (hmemiff hc) rfl rfl]
        simp

theorem mem_orphanWarnings {defs : List (Str × Str)} {used : List Str} {w : ParseWarning} :
    w ∈ orphanWarnings defs used ↔
      ∃ c, c ∈ defs.map Prod.fst ∧ c ∉ used ∧ w = ⟨1, 1, .orphanedDefinition, c⟩ := by
  unfold orphanWarnings
  rw [List.mem_filterMap]
  constructor
  · rintro ⟨c, hc, hw⟩
    by_cases hcu : c ∈ used
    · rw [if_pos hcu] at hw
      exact Option.noConfusion hw
    · rw [if_neg hcu] at hw
      injection hw with hw
      exact ⟨c, hc, hcu, hw.symm⟩
  · rintro ⟨c, hc, hcu, rfl⟩
    exact ⟨c, hc, by rw [if_neg hcu]⟩

theorem mem_missingWarnings {defs : List (Str × Str)} {used : List Str} {w : ParseWarning} :
    w ∈ missingWarnings used defs ↔
      ∃ c, c ∈ used ∧ (assocLookup defs c).isSome = false ∧
        w = ⟨1, 1, .missingDefinition, c⟩ := by
  unfold missingWarnings
  rw [List.mem_filterMap]
  constructor
  · rintro ⟨c, hc, hw⟩
    by_cases hcu : (assocLookup defs c).isSome = true
    · rw [if_pos hcu] at hw
      exact Option.noConfusion hw
    · rw [if_neg hcu] at hw
      injection hw with hw
      exact ⟨c, hc, by simpa using hcu, hw.symm⟩
  · rintro ⟨c, hc, hcu, rfl⟩
    exact ⟨c, hc, by rw [if_neg (by simp [hcu])]⟩

/-- C9: on failed parses the warnings sequence is empty; on successful parses
it contains exactly one `orphaned_definition` warning for each concept id
that has a definition entry but occurs in no returned (deduplicated)
predicate, exactly one `missing_definition` warning for each concept id that
occurs in some predicate but has no definition entry, and nothing else
(every warning is of one of these two shapes, with the placeholder location
line 1, column 1). -/
theorem warning_completeness (text : Str) :
    ((parseDSL text).errors ≠ [] → (parseDSL text).warnings = []) ∧
    ((parseDSL text).errors = [] →
      (∀ c : Str,
        (((parseDSL text).warnings.count ⟨1, 1, .orphanedDefinition, c⟩) =
          if (assocLookup (parseDSL text).definitions c).isSome = true ∧
              ¬∃ p ∈ (parseDSL text).predicates, p.source = c ∨ p.target = c
          then 1 else 0) ∧
        (((parseDSL text).warnings.count ⟨1, 1, .missingDefinition, c⟩) =
          if (∃ p ∈ (parseDSL text).predicates, p.source = c ∨ p.target = c) ∧
              (assocLookup (parseDSL text).definitions c).isSome = false
          then 1 else 0)) ∧
      (∀ w ∈ (parseDSL text).warnings,
        w.line = 1 ∧ w.column = 1 ∧
        ((w.wtype = .orphanedDefinition ∧
          (assocLookup (parseDSL text).definitions w.concept).isSome = true ∧
          ¬∃ p ∈ (parseDSL text).predicates,
            p.source = w.concept ∨ p.target = w.concept) ∨
        (w.wtype = .missingDefinition ∧
          (∃ p ∈ (parseDSL text).predicates,
            p.source = w.concept ∨ p.target = w.concept) ∧
          (assocLookup (parseDSL text).definitions w.concept).isSome = false)))) := by
  unfold parseDSL
  rcases hm : parseLoop (splitLines text).length (splitLines text) 0 [] [] with e | ⟨preds, defs⟩
  · exact ⟨fun _ => rfl, fun habs => absurd habs (by simp)⟩
  · constructor
    · intro habs
      exact absurd rfl habs
    · intro _
      have hnodupD : (defs.map Prod.fst).Nodup :=
        parseLoop_ok_defs_nodup _ _ _ _ _ _ _ hm (by simp)
      have hnodupU : (predConcepts (dedupPreds preds)).Nodup :=
        predConcepts_nodup (dedupPreds preds)
      refine ⟨fun c => ⟨?_, ?_⟩, ?_⟩
      · show ((orphanWarnings defs (predConcepts (dedupPreds preds)) ++
            missingWarnings (predConcepts (dedupPreds preds)) defs).count
            ⟨1, 1, .orphanedDefinition, c⟩) = _
        rw [List.count_append]
        have hz : (missingWarnings (predConcepts (dedupPreds preds)) defs).count
            ⟨1, 1, WarnType.orphanedDefinition, c⟩ = 0 := by
          rw [List.count_eq_zero]
          intro hmem
          obtain ⟨c0, _, _, heq⟩ := mem_missingWarnings.mp hmem
          exact WarnType.noConfusion (congrArg ParseWarning.wtype heq)
        rw [hz, Nat.add_zero]
        unfold orphanWarnings
        rw [count_orphan_aux _ _ _ hnodupD]
        refine if_congr (and_congr ?_ ?_) rfl rfl
        · exact assocLookup_isSome_iff.symm
        · rw [mem_predConcepts_iff]
      · show ((orphanWarnings defs (predConcepts (dedupPreds preds)) ++
            missingWarnings (predConcepts (dedupPreds preds)) defs).count
            ⟨1, 1, .missingDefinition, c⟩) = _
        rw [List.count_append]
        have hz : (orphanWarnings defs (predConcepts (dedupPreds preds))).count
            ⟨1, 1, WarnType.missingDefinition, c⟩ = 0 := by
          rw [List.count_eq_zero]
          intro hmem
          obtain ⟨c0, _, _, heq⟩ := mem_orphanWarnings.mp hmem
          exact WarnType.noConfusion (congrArg ParseWarning.wtype heq)
        rw [hz, Nat.zero_add]
        unfold missingWarnings
        rw [count_missing_aux _ _ _ hnodupU]
        refine if_congr (and_congr ?_ Iff.rfl) rfl rfl
        rw [mem_predConcepts_iff]
      · intro w hw
        rcases List.mem_append.mp hw with hw1 | hw1
        · obtain ⟨c0, hk, hu, rfl⟩ := mem_orphanWarnings.mp hw1
          refine ⟨rfl, rfl, Or.inl ⟨rfl, ?_, ?_⟩⟩
          · exact assocLookup_isSome_iff.mpr hk
          · rw [← mem_predConcepts_iff]
            exact hu
        · obtain ⟨c0, hu, hk, rfl⟩ := mem_missingWarnings.mp hw1
          refine ⟨rfl, rfl, Or.inr ⟨rfl, ?_, hk⟩⟩
          rw [← mem_predConcepts_iff]
          exact hu

/-- Witness for C9 at a concrete input with one orphaned and two missing
definitions. -/
theorem warning_completeness_witness :
    (parseDSL (("A -- r -> B\n\nC:\nstuff\n---").data)).warnings.count
        ⟨1, 1, .orphanedDefinition, ("C").data⟩ = 1 ∧
    (parseDSL (("A -- r -> B\n\nC:\nstuff\n---").data)).warnings.count
        ⟨1, 1, .missingDefinition, ("A").data⟩ = 1 ∧
    (parseDSL (("A -- r -> B\n\nC:\nstuff\n---").data)).warnings.count
        ⟨1, 1, .orphanedDefinition, ("A").data⟩ = 0 := by
  refine ⟨?_, ?_, ?_⟩
  · rw [((warning_completeness (("A -- r -> B\n\nC:\nstuff\n---").data)).2 rfl).1
      (("C").data) |>.1]
    rw [if_pos ⟨rfl, by decide⟩]
  · rw [((warning_completeness (("A -- r -> B\n\nC:\nstuff\n---").data)).2 rfl).1
      (("A").data) |>.2]
    rw [if_pos ⟨by decide, rfl⟩]
  · rw [((warning_completeness (("A -- r -> B\n\nC:\nstuff\n---").data)).2 rfl).1
      (("A").data) |>.1]
    rw [if_neg (by decide)]

/-! ## Claim C1: fail-fast error reporting -/

/-- What the line of a failing statement looks like, per error tag: a
predicate error arises on a non-blank non-header line whose trimmed content
fails `parsePredicate` with that failure point; an empty-concept or
duplicate-definition error arises on a definition header line.  An
unterminated-definition error carries no line content: its reported line is
past the end of the input. -/
def lineFailAt (l : Str) : ErrTag → Prop
  | .predErr k => trim l ≠ [] ∧ endsColon (trim l) = false ∧ parsePredicate (trim l) = .error k
  | .emptyConcept => trim l ≠ [] ∧ endsColon (trim l) = true ∧ trim (trim l).dropLast = []
  | .duplicateDef => trim l ≠ [] ∧ endsColon (trim l) = true ∧ trim (trim l).dropLast ≠ []
  | .unterminatedDef => False

theorem parseLoop_error (fuel : Nat) (rem : List Str) (i : Nat)
    (preds : List Predicate) (defs : List (Str × Str)) (e : ParseError)
    (hfuel : rem.length ≤ fuel)
    (h : parseLoop fuel rem i preds defs = .error e) :
    e.column = 1 ∧ e.etype = .synKind ∧
    ((e.tag = .unterminatedDef ∧ e.line = i + rem.length + 1) ∨
     (∃ pre l post, rem = pre ++ l :: post ∧ e.line = i + pre.length + 1 ∧
       lineFailAt l e.tag)) := by
  induction fuel generalizing rem i preds defs with
  | zero =>
    have hrem : rem = [] := List.eq_nil_of_length_eq_zero (Nat.le_zero.mp hfuel)
    subst hrem
    rw [parseLoop] at h
    exact Except.noConfusion h
  | succ fuel ih =>
    cases rem with
    | nil =>
      rw [parseLoop] at h
      exact Except.noConfusion h
    | cons l ls =>
      have hls : ls.length ≤ fuel := by simp at hfuel; omega
      rw [parseLoop] at h
      by_cases hb : trim l = []
      · rw [if_pos hb] at h
        obtain ⟨hcol, hty, hrest⟩ := ih ls (i + 1) preds defs hls h
        refine ⟨hcol, hty, ?_⟩
        rcases hrest with ⟨htag, hline⟩ | ⟨pre, l0, post, hrem, hline, hfail⟩
        · exact Or.inl ⟨htag, by simp [hline]; omega⟩
        · exact Or.inr ⟨l :: pre, l0, post, by simp [hrem], by simp [hline]; omega, hfail⟩
      rw [if_neg hb] at h
      by_cases hc : endsColon (trim l)
      · rw [if_pos hc] at h
        by_cases he : trim (trim l).dropLast = []
        · rw [if_pos he] at h
          injection h with h1
          subst h1
          exact ⟨rfl, rfl, Or.inr ⟨[], l, ls, rfl, by simp, hb, hc, he⟩⟩
        rw [if_neg he] at h
        by_cases hdup : truthyStr (assocLookup defs (trim (trim l).dropLast))
        · rw [if_pos hdup] at h
          injection h with h1
          subst h1
          exact ⟨rfl, rfl, Or.inr ⟨[], l, ls, rfl, by simp, hb, hc, he⟩⟩
        rw [if_neg hdup] at h
        rcases hs : scanBody ls with ⟨body, rest⟩
        rw [hs] at h
        have hlsdec := scanBody_append ls
        rw [hs] at hlsdec
        rcases rest with _ | ⟨t, after⟩
        · injection h with h1
          subst h1
          refine ⟨rfl, rfl, Or.inl ⟨rfl, ?_⟩⟩
          have : ls.length = body.length := by
            rw [← hlsdec]; simp
          simp [this]
          omega
        · have hafter : after.length ≤ fuel := by
            have := congrArg List.length hlsdec
            simp at this
            omega
          obtain ⟨hcol, hty, hrest⟩ := ih after _ preds _ hafter h
          refine ⟨hcol, hty, ?_⟩
          have hlen : ls.length = body.length + 1 + after.length := by
            have := congrArg List.length hlsdec
            simp at this
            omega
          rcases hrest with ⟨htag, hline⟩ | ⟨pre, l0, post, hrem, hline, hfail⟩
          · refine Or.inl ⟨htag, ?_⟩
            rw [hline]
            simp [hlen]
            omega
          · refine Or.inr ⟨l :: body ++ t :: pre, l0, post, ?_, ?_, hfail⟩
            · rw [← hlsdec, hrem]
              simp
            · rw [hline]
              simp
              omega
      · rw [if_neg hc] at h
        rcases hp : parsePredicate (trim l) with k | q <;> rw [hp] at h
        · injection h with h1
          subst h1
          refine ⟨rfl, rfl, Or.inr ⟨[], l, ls, rfl, by simp, hb, ?_, hp⟩⟩
          rcases hcv : endsColon (trim l) with _ | _
          · rfl
          · exact absurd hcv hc
        · obtain ⟨hcol, hty, hrest⟩ := ih ls (i + 1) (preds ++ [q]) defs hls h
          refine ⟨hcol, hty, ?_⟩
          rcases hrest with ⟨htag, hline⟩ | ⟨pre, l0, post, hrem, hline, hfail⟩
          · exact Or.inl ⟨htag, by simp [hline]; omega⟩
          · exact Or.inr ⟨l :: pre, l0, post, by simp [hrem], by simp [hline]; omega, hfail⟩

/-- C1 amended: whenever the input has a syntax violation, `parseDSL` returns
exactly one `ParseError`, with kind `syntax` and column 1, and empty
predicates, definitions and warnings; its line is the 1-based number of the
line on which the failing statement starts, except for an unterminated
definition, whose reported line is the total number of lines plus one. -/
theorem fail_fast_single_error (text : Str) :
    (parseDSL text).errors ≠ [] →
      ∃ e, (parseDSL text).errors = [e] ∧ e.column = 1 ∧ e.etype = .synKind ∧
        (parseDSL text).predicates = [] ∧ (parseDSL text).definitions = [] ∧
        (parseDSL text).warnings = [] ∧
        ((e.tag = .unterminatedDef ∧ e.line = (splitLines text).length + 1) ∨
         (∃ pre l post, splitLines text = pre ++ l :: post ∧ e.line = pre.length + 1 ∧
           lineFailAt l e.tag)) := by
  unfold parseDSL
  rcases hm : parseLoop (splitLines text).length (splitLines text) 0 [] [] with e | ⟨preds, defs⟩
  · intro _
    obtain ⟨hcol, hty, hrest⟩ :=
      parseLoop_error _ _ _ _ _ _ (Nat.le_refl _) hm
    refine ⟨e, rfl, hcol, hty, rfl, rfl, rfl, ?_⟩
    rcases hrest with ⟨htag, hline⟩ | ⟨pre, l, post, hrem, hline, hfail⟩
    · exact Or.inl ⟨htag, by simpa using hline⟩
    · exact Or.inr ⟨pre, l, post, hrem, by simpa using hline, hfail⟩
  · intro habs
    exact absurd rfl habs

/-- Witness for C1: the single-line input `x` (an invalid predicate). -/
theorem fail_fast_single_error_witness :
    ∃ e, (parseDSL (("x").data)).errors = [e] ∧ e.column = 1 ∧ e.etype = .synKind ∧
      (parseDSL (("x").data)).predicates = [] ∧
      (parseDSL (("x").data)).definitions = [] ∧
      (parseDSL (("x").data)).warnings = [] ∧
      ((e.tag = .unterminatedDef ∧ e.line = (splitLines (("x").data)).length + 1) ∨
       (∃ pre l post, splitLines (("x").data) = pre ++ l :: post ∧
         e.line = pre.length + 1 ∧ lineFailAt l e.tag)) :=
  fail_fast_single_error (("x").data) (by decide)

/-- C1 counterexample: on `A:\nbody` (an unterminated definition starting at
line 1 of a 2-line input) the single reported error carries line 3, not the
line where the failing statement started. -/
theorem unterminated_definition_error_line_past_input :
    (parseDSL (("A:\nbody").data)).errors = [⟨3, 1, .unterminatedDef, .synKind⟩] ∧
    (splitLines (("A:\nbody").data)).length = 2 ∧
    endsColon (trim (("A:").data)) = true := by
  exact ⟨rfl, rfl, rfl⟩

/-! ## Visibility lemmas (claims C2, C3, C4) -/

/-- The traversal-mode adjacency the spec describes: `b` is an immediate
neighbor of `a` when some edge runs from `a` to `b`, or, in bidirectional
mode, from `b` to `a`. -/
def adjacent (cm : ConceptMap) (bidi : Bool) (a b : Str) : Prop :=
  ∃ e ∈ cm.edges, (e.source = a ∧ e.target = b) ∨ (bidi = true ∧ e.target = a ∧ e.source = b)

theorem mem_foldl_insertUniq {x : Str} (ns : List Str) (acc : List Str) :
    x ∈ ns.foldl insertUniq acc ↔ x ∈ acc ∨ x ∈ ns := by
  induction ns generalizing acc with
  | nil => simp
  | cons n ns ih =>
    rw [List.foldl_cons, ih, mem_insertUniq]
    constructor
    · rintro ((h | h) | h)
      · exact Or.inl h
      · exact Or.inr (by simp [h])
      · exact Or.inr (by simp [h])
    · rintro (h | h)
      · exact Or.inl (Or.inl h)
      · rcases List.mem_cons.mp h with rfl | h2
        · exact Or.inl (Or.inr rfl)
        · exact Or.inr h2

theorem mem_neighbors {cm : ConceptMap} {a x : Str} {bidi : Bool} :
    x ∈ neighbors cm a bidi ↔ adjacent cm bidi a x := by
  unfold neighbors adjacent
  have main : ∀ (es : List Edge) (acc : List Str),
      x ∈ es.foldl (fun acc e =>
        let acc2 := if e.source = a then insertUniq acc e.target else acc
        if bidi && e.target = a then insertUniq acc2 e.source else acc2) acc ↔
      x ∈ acc ∨ ∃ e ∈ es, (e.source = a ∧ e.target = x) ∨
        (bidi = true ∧ e.target = a ∧ e.source = x) := by
    intro es
    induction es with
    | nil => simp
    | cons e es ih =>
      intro acc
      rw [List.foldl_cons, ih]
      have hstep : x ∈ (let acc2 := if e.source = a then insertUniq acc e.target else acc
          if bidi && e.target = a then insertUniq acc2 e.source else acc2) ↔
          x ∈ acc ∨ (e.source = a ∧ e.target = x) ∨
            (bidi = true ∧ e.target = a ∧ e.source = x) := by
        show x ∈ (if bidi && e.target = a then
            insertUniq (if e.source = a then insertUniq acc e.target else acc) e.source
          else (if e.source = a then insertUniq acc e.target else acc)) ↔ _
        by_cases h1 : e.source = a <;> by_cases h2 : bidi && e.target = a
        · rw [if_pos h2, if_pos h1, mem_insertUniq, mem_insertUniq]
          simp only [Bool.and_eq_true, decide_eq_true_eq] at h2
          constructor
          · rintro ((h | h) | h)
            · exact Or.inl h
            · exact Or.inr (Or.inl ⟨h1, h.symm⟩)
            · exact Or.inr (Or.inr ⟨h2.1, h2.2, h.symm⟩)
          · rintro (h | ⟨_, h⟩ | ⟨_, _, h⟩)
            · exact Or.inl (Or.inl h)
            · exact Or.inl (Or.inr h.symm)
            · exact Or.inr h.symm
        · rw [if_neg h2, if_pos h1, mem_insertUniq]
          simp only [Bool.and_eq_true, decide_eq_true_eq, not_and] at h2
          constructor
          · rintro (h | h)
            · exact Or.inl h
            · exact Or.inr (Or.inl ⟨h1, h.symm⟩)
          · rintro (h | ⟨_, h⟩ | ⟨hb, ht, h⟩)
            · exact Or.inl h
            · exact Or.inr h.symm
            · exact absurd ht (h2 hb)
        · rw [if_pos h2, if_neg h1, mem_insertUniq]
          simp only [Bool.and_eq_true, decide_eq_true_eq] at h2
          constructor
          · rintro (h | h)
            · exact Or.inl h
            · exact Or.inr (Or.inr ⟨h2.1, h2.2, h.symm⟩)
          · rintro (h | ⟨h, _⟩ | ⟨_, _, h⟩)
            · exact Or.inl h
            · exact absurd h h1
            · exact Or.inr h.symm
        · rw [if_neg h2, if_neg h1]
          simp only [Bool.and_eq_true, decide_eq_true_eq, not_and] at h2
          constructor
          · exact fun h => Or.inl h
          · rintro (h | ⟨h, _⟩ | ⟨hb, ht, _⟩)
            · exact h
            · exact absurd h h1
            · exact absurd ht (h2 hb)
      rw [hstep]
      constructor
      · rintro ((h | h) | ⟨e2, he2, h⟩)
        · exact Or.inl h
        · exact Or.inr ⟨e, by simp, h⟩
        · exact Or.inr ⟨e2, by simp [he2], h⟩
      · rintro (h | ⟨e2, he2, h⟩)
        · exact Or.inl (Or.inl h)
        · rcases List.mem_cons.mp he2 with rfl | h2
          · exact Or.inl (Or.inr h)
          · exact Or.inr ⟨e2, h2, h⟩
  rw [main cm.edges []]
  simp

theorem mem_relEndpoints {cm : ConceptMap} {r x : Str} :
    x ∈ relEndpoints cm r ↔
      ∃ e ∈ cm.edges, e.relationship = r ∧ (x = e.source ∨ x = e.target) := by
  unfold relEndpoints
  have main : ∀ (es : List Edge) (acc : List Str),
      x ∈ es.foldl (fun acc e =>
        if e.relationship = r then insertUniq (insertUniq acc e.source) e.target
        else acc) acc ↔
      x ∈ acc ∨ ∃ e ∈ es, e.relationship = r ∧ (x = e.source ∨ x = e.target) := by
    intro es
    induction es with
    | nil => simp
    | cons e es ih =>
      intro acc
      rw [List.foldl_cons, ih]
      by_cases hr : e.relationship = r
      · rw [if_pos hr, mem_insertUniq, mem_insertUniq]
        constructor
        · rintro (((h | h) | h) | ⟨e2, he2, h⟩)
          · exact Or.inl h
          · exact Or.inr ⟨e, by simp, hr, Or.inl h⟩
          · exact Or.inr ⟨e, by simp, hr, Or.inr h⟩
          · exact Or.inr ⟨e2, by simp [he2], h⟩
        · rintro (h | ⟨e2, he2, h⟩)
          · exact Or.inl (Or.inl (Or.inl h))
          · rcases List.mem_cons.mp he2 with rfl | h2
            · rcases h.2 with h3 | h3
              · exact Or.inl (Or.inl (Or.inr h3))
              · exact Or.inl (Or.inr h3)
            · exact Or.inr ⟨e2, h2, h⟩
      · rw [if_neg hr]
        constructor
        · rintro (h | ⟨e2, he2, h⟩)
          · exact Or.inl h
          · exact Or.inr ⟨e2, by simp [he2], h⟩
        · rintro (h | ⟨e2, he2, h⟩)
          · exact Or.inl h
          · rcases List.mem_cons.mp he2 with rfl | h2
            · exact absurd h.1 hr
            · exact Or.inr ⟨e2, h2, h⟩
  rw [main cm.edges []]
  simp

theorem mem_visiblePre {cm : ConceptMap} {x : Str} :
    x ∈ visiblePre cm ↔
      ((∃ a, cm.filterState.activeNode = some a ∧
        (x = a ∨ (x ∈ cm.nodes.map Node.id ∧
          distLe (getDistanceFromActive cm x) cm.filterState.maxDistance = true))) ∨
       (x ∈ cm.filterState.selectedNodes ∨
        ∃ s ∈ cm.filterState.selectedNodes,
          adjacent cm cm.filterState.bidirectional s x)) := by
  unfold visiblePre
  have houter : ∀ (sel : List Str) (acc : List Str),
      x ∈ sel.foldl (fun acc s =>
        (neighbors cm s cm.filterState.bidirectional).foldl insertUniq
          (insertUniq acc s)) acc ↔
      x ∈ acc ∨ x ∈ sel ∨
        ∃ s ∈ sel, adjacent cm cm.filterState.bidirectional s x := by
    intro sel
    induction sel with
    | nil => simp
    | cons s sel ih =>
      intro acc
      rw [List.foldl_cons, ih, mem_foldl_insertUniq, mem_insertUniq]
      constructor
      · rintro (((h | h) | h) | h | ⟨s2, hs2, h⟩)
        · exact Or.inl h
        · exact Or.inr (Or.inl (by simp [h]))
        · exact Or.inr (Or.inr ⟨s, by simp, mem_neighbors.mp h⟩)
        · exact Or.inr (Or.inl (by simp [h]))
        · exact Or.inr (Or.inr ⟨s2, by simp [hs2], h⟩)
      · rintro (h | h | ⟨s2, hs2, h⟩)
        · exact Or.inl (Or.inl (Or.inl h))
        · rcases List.mem_cons.mp h with rfl | h2
          · exact Or.inl (Or.inl (Or.inr rfl))
          · exact Or.inr (Or.inl h2)
        · rcases List.mem_cons.mp hs2 with rfl | h2
          · exact Or.inl (Or.inr (mem_neighbors.mpr h))
          · exact Or.inr (Or.inr ⟨s2, h2, h⟩)
  have hbase : ∀ (nds : List Node) (acc : List Str),
      x ∈ nds.foldl (fun acc node =>
        if distLe (getDistanceFromActive cm node.id) cm.filterState.maxDistance then
          insertUniq acc node.id
        else acc) acc ↔
      x ∈ acc ∨ ∃ nd ∈ nds, x = nd.id ∧
        distLe (getDistanceFromActive cm nd.id) cm.filterState.maxDistance = true := by
    intro nds
    induction nds with
    | nil => simp
    | cons nd nds ih =>
      intro acc
      rw [List.foldl_cons, ih]
      by_cases hd : distLe (getDistanceFromActive cm nd.id) cm.filterState.maxDistance = true
      · rw [if_pos hd, mem_insertUniq]
        constructor
        · rintro ((h | h) | ⟨n2, hn2, h⟩)
          · exact Or.inl h
          · exact Or.inr ⟨nd, by simp, h, hd⟩
          · exact Or.inr ⟨n2, by simp [hn2], h⟩
        · rintro (h | ⟨n2, hn2, h⟩)
          · exact Or.inl (Or.inl h)
          · rcases List.mem_cons.mp hn2 with rfl | h2
            · exact Or.inl (Or.inr h.1)
            · exact Or.inr ⟨n2, h2, h⟩
      · rw [if_neg hd]
        constructor
        · rintro (h | ⟨n2, hn2, h⟩)
          · exact Or.inl h
          · exact Or.inr ⟨n2, by simp [hn2], h⟩
        · rintro (h | ⟨n2, hn2, h⟩)
          · exact Or.inl h
          · rcases List.mem_cons.mp hn2 with rfl | h2
            · exact absurd h.2 hd
            · exact Or.inr ⟨n2, h2, h⟩
  rw [houter]
  rcases ha : cm.filterState.activeNode with _ | a
  · simp
  · rw [hbase, mem_insertUniq]
    constructor
    · rintro (((h | h) | ⟨nd, hnd, rfl, hdist⟩) | h)
      · simp at h
      · exact Or.inl ⟨a, rfl, Or.inl h⟩
      · exact Or.inl ⟨a, rfl, Or.inr ⟨by simp; exact ⟨nd, hnd, rfl⟩, hdist⟩⟩
      · exact Or.inr h
    · rintro (⟨a2, ha2, h⟩ | h)
      · injection ha2 with ha2
        subst ha2
        rcases h with h | ⟨hmem, hdist⟩
        · exact Or.inl (Or.inl (Or.inr h))
        · simp at hmem
          obtain ⟨nd, hnd, hid⟩ := hmem
          exact Or.inl (Or.inr ⟨nd, hnd, hid.symm, by rw [hid]; exact hdist⟩)
      · exact Or.inr h

theorem visiblePre_empty {cm : ConceptMap} (h1 : cm.filterState.activeNode = none)
    (h2 : cm.filterState.selectedNodes = []) : visiblePre cm = [] := by
  unfold visiblePre
  rw [h1, h2]
  rfl

/-! ## Claim C3: the visible-node set before relationship narrowing -/

/-- The concrete map of the spec's visibility example: edges A→B, B→C, A→D,
active node A, maximum distance 1. -/
def c3Map : ConceptMap :=
  setMaxDistance (setActiveNode (addEdge (addEdge (addEdge (addNode (addNode (addNode
    (addNode (emptyMap ("m").data) ("A").data none) ("B").data none) ("C").data none)
    ("D").data none) ("A").data ("B").data ("r").data) ("B").data ("C").data ("r").data)
    ("A").data ("D").data ("r").data) (some ("A").data)) 1

/-- C3: with no active node and no selected nodes both visibility queries are
empty whatever the graph holds; otherwise the accumulated set before
relationship narrowing consists of exactly the active node together with
every registered node whose `getDistanceFromActive` is at most
`maxDistance` (when an active node is set), united with every selected node
and all of its immediate neighbors under the current traversal mode. -/
theorem visible_nodes_union :
    (∀ cm : ConceptMap, cm.filterState.activeNode = none →
      cm.filterState.selectedNodes = [] →
      getVisibleNodes cm = [] ∧ getVisibleEdges cm = []) ∧
    (∀ (cm : ConceptMap) (x : Str),
      x ∈ visiblePre cm ↔
        ((∃ a, cm.filterState.activeNode = some a ∧
          (x = a ∨ (x ∈ cm.nodes.map Node.id ∧
            distLe (getDistanceFromActive cm x) cm.filterState.maxDistance = true))) ∨
         (x ∈ cm.filterState.selectedNodes ∨
          ∃ s ∈ cm.filterState.selectedNodes,
            adjacent cm cm.filterState.bidirectional s x))) := by
  constructor
  · intro cm h1 h2
    have hvis : getVisibleNodes cm = [] := by
      unfold getVisibleNodes
      rw [if_pos ⟨h1, h2⟩]
    refine ⟨hvis, ?_⟩
    unfold getVisibleEdges
    rw [hvis]
    apply List.filter_eq_nil.mpr
    intro e he
    rcases hr : cm.filterState.activeRelationship with _ | r <;> simp
  · intro cm x
    exact mem_visiblePre

/-- Witness for C3: the empty-state part on an empty map, and the
characterization applied to node B of the example map (distance 1 from the
active node A). -/
theorem visible_nodes_union_witness :
    (getVisibleNodes (emptyMap ("m").data) = [] ∧
      getVisibleEdges (emptyMap ("m").data) = []) ∧
    ("B").data ∈ visiblePre c3Map := by
  constructor
  · exact visible_nodes_union.1 (emptyMap ("m").data) rfl rfl
  · exact (visible_nodes_union.2 c3Map (("B").data)).mpr
      (Or.inl ⟨("A").data, rfl, Or.inr ⟨by decide, by decide⟩⟩)

/-! ## Claim C4: relationship narrowing

The narrowing guard is the JavaScript truthiness `if (activeRelationship)`,
so setting the active relationship to the empty string does not narrow,
contrary to the claim's "non-null, including the empty string". -/

/-- A map with one `r`-edge A→B, active node A, and the active relationship
set to the empty string. -/
def c4Map : ConceptMap :=
  setActiveRelationship (setActiveNode (addEdge (addNode (addNode
    (emptyMap ("m").data) ("A").data none) ("B").data none)
    ("A").data ("B").data ("r").data) (some ("A").data)) (some [])

/-- C4 counterexample: on `c4Map` the active relationship is the empty
string and no edge carries it, so the claim's intersection is empty, yet
`getVisibleNodes` returns A and B — the empty string does not narrow. -/
theorem empty_relationship_does_not_narrow :
    c4Map.filterState.activeRelationship = some [] ∧
    relEndpoints c4Map [] = [] ∧
    getVisibleNodes c4Map = [("A").data, ("B").data] := by
  exact ⟨rfl, rfl, rfl⟩

/-- C4 amended: when `activeRelationship` is a non-null, non-empty string
`r`, `getVisibleNodes` is exactly the accumulated pre-narrowing set
intersected with the endpoints of `r`-edges across the whole graph, and an
edge is visible iff both endpoints are visible and it carries `r`.  When it
is the empty string, visibility behaves exactly as when it is null; with it
null, an edge is visible iff both endpoints are visible. -/
theorem relationship_narrowing :
    (∀ (cm : ConceptMap) (r : Str), cm.filterState.activeRelationship = some r → r ≠ [] →
      ∀ x, x ∈ getVisibleNodes cm ↔ (x ∈ visiblePre cm ∧
        ∃ e ∈ cm.edges, e.relationship = r ∧ (x = e.source ∨ x = e.target))) ∧
    (∀ (cm : ConceptMap) (r : Str), cm.filterState.activeRelationship = some r → r ≠ [] →
      ∀ e, e ∈ getVisibleEdges cm ↔ (e ∈ cm.edges ∧
        e.source ∈ getVisibleNodes cm ∧ e.target ∈ getVisibleNodes cm ∧
        e.relationship = r)) ∧
    (∀ cm : ConceptMap, cm.filterState.activeRelationship = some [] →
      (∀ x, x ∈ getVisibleNodes cm ↔ x ∈ visiblePre cm) ∧
      (∀ e, e ∈ getVisibleEdges cm ↔ (e ∈ cm.edges ∧
        e.source ∈ getVisibleNodes cm ∧ e.target ∈ getVisibleNodes cm))) ∧
    (∀ cm : ConceptMap, cm.filterState.activeRelationship = none →
      (∀ x, x ∈ getVisibleNodes cm ↔ x ∈ visiblePre cm) ∧
      (∀ e, e ∈ getVisibleEdges cm ↔ (e ∈ cm.edges ∧
        e.source ∈ getVisibleNodes cm ∧ e.target ∈ getVisibleNodes cm))) := by
  refine ⟨?_, ?_, ?_, ?_⟩
  · intro cm r hr hne x
    by_cases hes : cm.filterState.activeNode = none ∧ cm.filterState.selectedNodes = []
    · have hzero : getVisibleNodes cm = [] := by
        unfold getVisibleNodes
        rw [if_pos hes]
      rw [hzero, visiblePre_empty hes.1 hes.2]
      simp
    · have hfil : getVisibleNodes cm =
          (visiblePre cm).filter (fun x => decide (x ∈ relEndpoints cm r)) := by
        unfold getVisibleNodes
        rw [if_neg hes, hr]
        simp [hne]
      rw [hfil, List.mem_filter]
      constructor
      · rintro ⟨hpre, hend⟩
        simp only [decide_eq_true_eq] at hend
        exact ⟨hpre, mem_relEndpoints.mp hend⟩
      · rintro ⟨hpre, hend⟩
        exact ⟨hpre, by simp only [decide_eq_true_eq]; exact mem_relEndpoints.mpr hend⟩
  · intro cm r hr hne e
    unfold getVisibleEdges
    rw [List.mem_filter, hr]
    simp only [hne, ite_false, if_neg, decide_eq_true_eq, and_assoc]
  · intro cm hr
    constructor
    · intro x
      by_cases hes : cm.filterState.activeNode = none ∧ cm.filterState.selectedNodes = []
      · have hzero : getVisibleNodes cm = [] := by
          unfold getVisibleNodes
          rw [if_pos hes]
        rw [hzero, visiblePre_empty hes.1 hes.2]
      · have hfil : getVisibleNodes cm = visiblePre cm := by
          unfold getVisibleNodes
          rw [if_neg hes, hr]
          rfl
        rw [hfil]
    · intro e
      unfold getVisibleEdges
      rw [List.mem_filter, hr]
      simp [and_assoc]
  · intro cm hr
    constructor
    · intro x
      by_cases hes : cm.filterState.activeNode = none ∧ cm.filterState.selectedNodes = []
      · have hzero : getVisibleNodes cm = [] := by
          unfold getVisibleNodes
          rw [if_pos hes]
        rw [hzero, visiblePre_empty hes.1 hes.2]
      · have hfil : getVisibleNodes cm = visiblePre cm := by
          unfold getVisibleNodes
          rw [if_neg hes, hr]
        rw [hfil]
    · intro e
      unfold getVisibleEdges
      rw [List.mem_filter, hr]
      simp [and_assoc]

/-- Witness for C4 at a concrete map: narrowing by the relationship
`implements` keeps A (an endpoint of an `implements` edge) and the edge
A→B, while the empty-string case of `c4Map` is unchanged by clearing the
relationship. -/
theorem relationship_narrowing_witness :
    (("A").data ∈ getVisibleNodes (setActiveRelationship c3Map (some ("implements").data)) ↔
      (("A").data ∈ visiblePre (setActiveRelationship c3Map (some ("implements").data)) ∧
        ∃ e ∈ (setActiveRelationship c3Map (some ("implements").data)).edges,
          e.relationship = ("implements").data ∧
          (("A").data = e.source ∨ ("A").data = e.target))) ∧
    (("A").data ∈ getVisibleNodes c4Map ↔ ("A").data ∈ visiblePre c4Map) := by
  constructor
  · exact relationship_narrowing.1 _ _ rfl (by decide) _
  · exact (relationship_narrowing.2.2.1 c4Map rfl).1 (("A").data)

/-! ## Claim C2: BFS distance is shortest-path distance

Specification side: `Reach cm bidi s n x` states there is a walk of exactly
`n` edges from `s` to `x` under the traversal mode; the shortest-path
distance from `s` to `x` is the least such `n` (`MinDist`). -/

/-- Walks of exactly `n` steps along the traversal-mode adjacency. -/
def Reach (cm : ConceptMap) (bidi : Bool) (s : Str) : Nat → Str → Prop
  | 0, x => x = s
  | n + 1, x => ∃ y, Reach cm bidi s n y ∧ adjacent cm bidi y x

/-- `d` is the length in edges of a shortest path from `s` to `x`. -/
def MinDist (cm : ConceptMap) (bidi : Bool) (s : Str) (x : Str) (d : Nat) : Prop :=
  Reach cm bidi s d x ∧ ∀ j < d, ¬ Reach cm bidi s j x

theorem MinDist_unique {cm : ConceptMap} {bidi : Bool} {s x : Str} {d1 d2 : Nat}
    (h1 : MinDist cm bidi s x d1) (h2 : MinDist cm bidi s x d2) : d1 = d2 := by
  by_contra hne
  rcases Nat.lt_or_ge d1 d2 with h | h
  · exact h2.2 d1 h h1.1
  · rcases Nat.lt_or_ge d2 d1 with h3 | h3
    · exact h1.2 d2 h3 h2.1
    · omega

/-- All edge endpoints, the candidate set every BFS-discovered node other
than the start belongs to. -/
def endpoints (cm : ConceptMap) : List Str :=
  cm.edges.foldr (fun e acc => e.source :: e.target :: acc) []

theorem mem_endpoints_iff {cm : ConceptMap} {x : Str} :
    x ∈ endpoints cm ↔ ∃ e ∈ cm.edges, x = e.source ∨ x = e.target := by
  unfold endpoints
  induction cm.edges with
  | nil => simp
  | cons e es ih =>
    rw [List.foldr_cons]
    simp only [List.mem_cons, ih]
    constructor
    · rintro (h | h | ⟨e2, he2, h⟩)
      · exact ⟨e, by simp, Or.inl h⟩
      · exact ⟨e, by simp, Or.inr h⟩
      · exact ⟨e2, by simp [he2], h⟩
    · rintro ⟨e2, he2, h⟩
      rcases he2 with rfl | h2
      · rcases h with h | h
        · exact Or.inl h
        · exact Or.inr (Or.inl h)
      · exact Or.inr (Or.inr ⟨e2, h2, h⟩)

theorem endpoints_length (cm : ConceptMap) :
    (endpoints cm).length = 2 * cm.edges.length := by
  unfold endpoints
  induction cm.edges with
  | nil => rfl
  | cons e es ih =>
    rw [List.foldr_cons]
    simp only [List.length_cons, ih]
    omega

theorem neighbor_mem_endpoints {cm : ConceptMap} {bidi : Bool} {y z : Str}
    (h : z ∈ neighbors cm y bidi) : z ∈ endpoints cm := by
  obtain ⟨e, he, hor⟩ := mem_neighbors.mp h
  rw [mem_endpoints_iff]
  rcases hor with ⟨_, h2⟩ | ⟨_, _, h2⟩
  · exact ⟨e, he, Or.inr h2.symm⟩
  · exact ⟨e, he, Or.inl h2.symm⟩

theorem nodup_length_le {l m : List Str} (hnd : l.Nodup) (hsub : ∀ x ∈ l, x ∈ m) :
    l.length ≤ m.length := by
  have h1 : l.toFinset.card = l.length := List.toFinset_card_of_nodup hnd
  have h2 : l.toFinset ⊆ m.toFinset := by
    intro x hx
    rw [List.mem_toFinset] at hx ⊢
    exact hsub x hx
  have h3 : l.toFinset.card ≤ m.toFinset.card := Finset.card_le_card h2
  have h4 : m.toFinset.card ≤ m.length := m.toFinset_card_le
  omega

/-- The nodes freshly discovered (and enqueued) while relaxing a neighbor
list `ns` against a visited set `v`. -/
def newNodes : List Str → List Str → List Str
  | [], _ => []
  | m :: ms, v => if m ∈ v then newNodes ms v else m :: newNodes ms (v ++ [m])

theorem newNodes_subset {ns : List Str} {v : List Str} {x : Str}
    (h : x ∈ newNodes ns v) : x ∈ ns := by
  induction ns generalizing v with
  | nil => simp [newNodes] at h
  | cons m ms ih =>
    rw [newNodes] at h
    split at h
    · exact List.mem_cons_of_mem _ (ih h)
    · rcases List.mem_cons.mp h with rfl | h2
      · simp
      · exact List.mem_cons_of_mem _ (ih h2)

theorem newNodes_fresh {ns : List Str} {v : List Str} {x : Str}
    (h : x ∈ newNodes ns v) : x ∉ v := by
  induction ns generalizing v with
  | nil => simp [newNodes] at h
  | cons m ms ih =>
    rw [newNodes] at h
    split at h
    · exact ih h
    · rcases List.mem_cons.mp h with rfl | h2
      · rename_i hm
        exact hm
      · intro hv
        exact (ih h2) (by simp [hv])

theorem newNodes_nodup (ns : List Str) (v : List Str) : (newNodes ns v).Nodup := by
  induction ns generalizing v with
  | nil => simp [newNodes]
  | cons m ms ih =>
    rw [newNodes]
    split
    · exact ih v
    · rw [List.nodup_cons]
      refine ⟨fun hmem => ?_, ih (v ++ [m])⟩
      exact (newNodes_fresh hmem) (by simp)

theorem newNodes_covers {ns : List Str} {v : List Str} {x : Str} (h : x ∈ ns) :
    x ∈ v ∨ x ∈ newNodes ns v := by
  induction ns generalizing v with
  | nil => simp at h
  | cons m ms ih =>
    rw [newNodes]
    rcases List.mem_cons.mp h with rfl | h2
    · split
      · rename_i hm
        exact Or.inl hm
      · exact Or.inr (by simp)
    · split
      · exact ih h2
      · rcases ih (v := v ++ [m]) h2 with h3 | h3
        · rcases List.mem_append.mp h3 with h4 | h4
          · exact Or.inl h4
          · simp at h4
            subst h4
            exact Or.inr (by simp)
        · exact Or.inr (List.mem_cons_of_mem _ h3)

theorem relaxAll_found {ns : List Str} {goal : Str} (h : goal ∈ ns)
    (visited : List Str) (queue : List (Str × Nat)) (d : Nat) :
    relaxAll ns goal visited queue d = .inl (d + 1) := by
  induction ns generalizing visited queue with
  | nil => simp at h
  | cons m ms ih =>
    rw [relaxAll]
    by_cases hm : m = goal
    · rw [if_pos hm]
    · rw [if_neg hm]
      have h2 : goal ∈ ms := by
        rcases List.mem_cons.mp h with h3 | h3
        · exact absurd h3.symm hm
        · exact h3
      split
      · exact ih h2 _ _
      · exact ih h2 _ _

theorem relaxAll_not_found {ns : List Str} {goal : Str} (h : goal ∉ ns)
    (visited : List Str) (queue : List (Str × Nat)) (d : Nat) :
    relaxAll ns goal visited queue d =
      .inr (visited ++ newNodes ns visited,
        queue ++ (newNodes ns visited).map (fun m => (m, d + 1))) := by
  induction ns generalizing visited queue with
  | nil => simp [relaxAll, newNodes]
  | cons m ms ih =>
    have hm : ¬ m = goal := fun hc => h (by simp [hc])
    have hms : goal ∉ ms := fun hc => h (by simp [hc])
    rw [relaxAll, if_neg hm, newNodes]
    split
    · exact ih hms _ _
    · rw [ih hms (visited ++ [m]) (queue ++ [(m, d + 1)])]
      simp

/-- The breadth-first invariant tying a `bfsLoop` state to shortest-path
distances: the queue splits into a frontier `A` at distance `D` and a
partial next frontier `B` at `D + 1` (each entry at its exact shortest
distance); the visited list is duplicate-free, contains the start and the
whole queue but never the goal `t`; every visited node no longer queued has
been fully processed (all its neighbors visited, and none of them `t`,
since that would have ended the search); every node other than `t` within
distance `D` is visited; `t` is farther than `D`; and every visited node is
the start or an edge endpoint (for the fuel bound). -/
structure BfsInv (cm : ConceptMap) (bidi : Bool) (s t : Str)
    (D : Nat) (A B visited : List Str) : Prop where
  minA : ∀ x ∈ A, MinDist cm bidi s x D
  minB : ∀ x ∈ B, MinDist cm bidi s x (D + 1)
  ndV : visited.Nodup
  ndQ : (A ++ B).Nodup
  qSubV : ∀ x ∈ A ++ B, x ∈ visited
  sV : s ∈ visited
  tV : t ∉ visited
  proc : ∀ y ∈ visited, y ∉ A ++ B →
    (∀ z ∈ neighbors cm y bidi, z ∈ visited) ∧ t ∉ neighbors cm y bidi
  compl : ∀ y, y ≠ t → ∀ j ≤ D, Reach cm bidi s j y → y ∈ visited
  tFar : ∀ j ≤ D, ¬ Reach cm bidi s j t
  subC : ∀ x ∈ visited, x ∈ s :: endpoints cm

theorem bfsLoop_correct (cm : ConceptMap) (bidi : Bool) (s t : Str) :
    ∀ (fuel D : Nat) (A B visited : List Str),
      BfsInv cm bidi s t D A B visited →
      (A = [] → B = []) →
      (1 + 2 * cm.edges.length - visited.length) + (A ++ B).length < fuel →
      (∀ k, bfsLoop cm t bidi fuel
          (A.map (fun x => (x, D)) ++ B.map (fun x => (x, D + 1))) visited = some k →
          MinDist cm bidi s t k) ∧
      (bfsLoop cm t bidi fuel
          (A.map (fun x => (x, D)) ++ B.map (fun x => (x, D + 1))) visited = none →
          ∀ j, ¬ Reach cm bidi s j t) := by
  intro fuel
  induction fuel with
  | zero =>
    intro D A B visited hinv hnorm hfuel
    omega
  | succ fuel ih =>
    intro D A B visited hinv hnorm hfuel
    cases A with
    | nil =>
      have hB := hnorm rfl
      subst hB
      simp only [List.map_nil, List.append_nil]
      have hclosed : ∀ j y, Reach cm bidi s j y → y ∈ visited := by
        intro j
        induction j with
        | zero =>
          intro y hy
          rw [Reach] at hy
          subst hy
          exact hinv.sV
        | succ j ihj =>
          intro y hy
          rw [Reach] at hy
          obtain ⟨z, hz, hadj⟩ := hy
          have hzv := ihj z hz
          have hzp := hinv.proc z hzv (by simp)
          exact hzp.1 y (mem_neighbors.mpr hadj)
      constructor
      · intro k hk
        simp [bfsLoop] at hk
      · intro _ j hreach
        exact hinv.tV (hclosed j t hreach)
    | cons a A1 =>
      have haMin : MinDist cm bidi s a D := hinv.minA a (by simp)
      rw [List.map_cons, List.cons_append, bfsLoop]
      by_cases htn : t ∈ neighbors cm a bidi
      · rw [relaxAll_found htn]
        constructor
        · intro k hk
          simp only [Option.some.injEq] at hk
          subst hk
          constructor
          · rw [Reach]
            exact ⟨a, haMin.1, mem_neighbors.mp htn⟩
          · intro j hj
            exact hinv.tFar j (by omega)
        · intro hk
          exact Option.noConfusion hk
      · rw [relaxAll_not_found htn]
        have hnnSub : ∀ x ∈ newNodes (neighbors cm a bidi) visited, x ∈ neighbors cm a bidi :=
          fun x hx => newNodes_subset hx
        have hnnFresh : ∀ x ∈ newNodes (neighbors cm a bidi) visited, x ∉ visited :=
          fun x hx => newNodes_fresh hx
        have hnnT : t ∉ newNodes (neighbors cm a bidi) visited :=
          fun hx => htn (hnnSub t hx)
        have haNotNN : a ∉ newNodes (neighbors cm a bidi) visited :=
          fun hx => (hnnFresh a hx) (hinv.qSubV a (by simp))
        have hnnMin : ∀ x ∈ newNodes (neighbors cm a bidi) visited,
            MinDist cm bidi s x (D + 1) := by
          intro x hx
          constructor
          · rw [Reach]
            exact ⟨a, haMin.1, mem_neighbors.mp (hnnSub x hx)⟩
          · intro j hj hreach
            have hxt : x ≠ t := fun hc => hnnT (hc ▸ hx)
            exact (hnnFresh x hx) (hinv.compl x hxt j (by omega) hreach)
        have hq1SubV : ∀ x ∈ A1 ++ B, x ∈ visited :=
          fun x hx => hinv.qSubV x (by simp [List.mem_append] at hx ⊢; tauto)
        have hinv2 : BfsInv cm bidi s t D A1
            (B ++ newNodes (neighbors cm a bidi) visited)
            (visited ++ newNodes (neighbors cm a bidi) visited) := by
          refine ⟨?_, ?_, ?_, ?_, ?_, ?_, ?_, ?_, ?_, ?_, ?_⟩
          · exact fun x hx => hinv.minA x (by simp [hx])
          · intro x hx
            rcases List.mem_append.mp hx with h | h
            · exact hinv.minB x h
            · exact hnnMin x h
          · refine hinv.ndV.append (newNodes_nodup _ _) ?_
            intro x hx1 hx2
            exact (hnnFresh x hx2) hx1
          · rw [← List.append_assoc]
            have hndq1 : (A1 ++ B).Nodup := by
              have h0 := hinv.ndQ
              rw [List.cons_append] at h0
              exact h0.of_cons
            refine hndq1.append (newNodes_nodup _ _) ?_
            intro x hx1 hx2
            exact (hnnFresh x hx2) (hq1SubV x hx1)
          · intro x hx
            rw [← List.append_assoc] at hx
            rcases List.mem_append.mp hx with h | h
            · exact List.mem_append.mpr (Or.inl (hq1SubV x h))
            · exact List.mem_append.mpr (Or.inr h)
          · exact List.mem_append.mpr (Or.inl hinv.sV)
          · intro hx
            rcases List.mem_append.mp hx with h | h
            · exact hinv.tV h
            · exact hnnT h
          · intro y hy hynq
            rw [← List.append_assoc] at hynq
            rcases List.mem_append.mp hy with hyv | hynn
            · by_cases hya : y = a
              · subst hya
                refine ⟨?_, htn⟩
                intro z hz
                rcases newNodes_covers (v := visited) hz with h | h
                · exact List.mem_append.mpr (Or.inl h)
                · exact List.mem_append.mpr (Or.inr h)
              · have hyold : y ∉ (a :: A1) ++ B := by
                  intro hmem
                  rcases List.mem_append.mp hmem with h | h
                  · rcases List.mem_cons.mp h with h2 | h2
                    · exact hya h2
                    · exact hynq (List.mem_append.mpr (Or.inl (List.mem_append.mpr (Or.inl h2))))
                  · exact hynq (List.mem_append.mpr (Or.inl (List.mem_append.mpr (Or.inr h))))
                obtain ⟨hsub, hnt⟩ := hinv.proc y hyv hyold
                exact ⟨fun z hz => List.mem_append.mpr (Or.inl (hsub z hz)), hnt⟩
            · exact absurd (List.mem_append.mpr (Or.inr hynn)) hynq
          · intro y hy j hj hreach
            exact List.mem_append.mpr (Or.inl (hinv.compl y hy j hj hreach))
          · exact hinv.tFar
          · intro x hx
            rcases List.mem_append.mp hx with h | h
            · exact hinv.subC x h
            · exact List.mem_cons_of_mem _ (neighbor_mem_endpoints (hnnSub x h))
        have hbound : (visited ++ newNodes (neighbors cm a bidi) visited).length ≤
            1 + 2 * cm.edges.length := by
          have h1 := nodup_length_le hinv2.ndV (fun x hx => hinv2.subC x hx)
          have h2 : (s :: endpoints cm).length = 1 + 2 * cm.edges.length := by
            simp [endpoints_length]
            omega
          omega
        have hfuel2 : (1 + 2 * cm.edges.length -
            (visited ++ newNodes (neighbors cm a bidi) visited).length) +
            (A1 ++ (B ++ newNodes (neighbors cm a bidi) visited)).length < fuel := by
          simp only [List.length_append, List.length_cons] at hfuel hbound ⊢
          omega
        rw [List.append_assoc, ← List.map_append]
        by_cases hA1 : A1 = []
        · subst hA1
          have hprev := hinv2
          have hinv3 : BfsInv cm bidi s t (D + 1)
              (B ++ newNodes (neighbors cm a bidi) visited) []
              (visited ++ newNodes (neighbors cm a bidi) visited) := by
            have hproc2 := hprev.proc
            have hq2 : ∀ z, z ∈ B ++ newNodes (neighbors cm a bidi) visited →
                MinDist cm bidi s z (D + 1) := hprev.minB
            have hcompl2 : ∀ y, y ≠ t → ∀ j, j ≤ D + 1 → Reach cm bidi s j y →
                y ∈ visited ++ newNodes (neighbors cm a bidi) visited := by
              intro y hy j hj hreach
              rcases Nat.lt_or_ge j (D + 1) with hlt | hge
              · exact hprev.compl y hy j (by omega) hreach
              · have hj2 : j = D + 1 := by omega
                subst hj2
                rw [Reach] at hreach
                obtain ⟨z, hz, hadj⟩ := hreach
                have hzt : z ≠ t := by
                  intro hc
                  subst hc
                  exact hinv.tFar D (by omega) hz
                have hzv : z ∈ visited ++ newNodes (neighbors cm a bidi) visited :=
                  hprev.compl z hzt D (by omega) hz
                have hznq : z ∉ ([] : List Str) ++
                    (B ++ newNodes (neighbors cm a bidi) visited) := by
                  intro hmem
                  simp only [List.nil_append] at hmem
                  exact (hq2 z hmem).2 D (by omega) hz
                obtain ⟨hsub, _⟩ := hproc2 z hzv hznq
                exact hsub y (mem_neighbors.mpr hadj)
            have htfar2 : ∀ j, j ≤ D + 1 → ¬ Reach cm bidi s j t := by
              intro j hj hreach
              rcases Nat.lt_or_ge j (D + 1) with hlt | hge
              · exact hinv.tFar j (by omega) hreach
              · have hj2 : j = D + 1 := by omega
                subst hj2
                rw [Reach] at hreach
                obtain ⟨z, hz, hadj⟩ := hreach
                have hzt : z ≠ t := by
                  intro hc
                  subst hc
                  exact hinv.tFar D (by omega) hz
                have hzv : z ∈ visited ++ newNodes (neighbors cm a bidi) visited :=
                  hprev.compl z hzt D (by omega) hz
                have hznq : z ∉ ([] : List Str) ++
                    (B ++ newNodes (neighbors cm a bidi) visited) := by
                  intro hmem
                  simp only [List.nil_append] at hmem
                  exact (hq2 z hmem).2 D (by omega) hz
                obtain ⟨_, hnt⟩ := hproc2 z hzv hznq
                exact hnt (mem_neighbors.mpr hadj)
            refine ⟨hprev.minB, ?_, hprev.ndV, ?_, ?_, hprev.sV, hprev.tV, ?_,
              hcompl2, htfar2, hprev.subC⟩
            · intro x hx
              simp at hx
            · simpa using hprev.ndQ
            · intro x hx
              exact hprev.qSubV x (by simpa using hx)
            · intro y hy hynq
              refine hprev.proc y hy ?_
              simpa using hynq
          have hfuel3 : (1 + 2 * cm.edges.length -
              (visited ++ newNodes (neighbors cm a bidi) visited).length) +
              ((B ++ newNodes (neighbors cm a bidi) visited) ++ ([] : List Str)).length
                < fuel := by
            simp only [List.length_append, List.length_cons, List.length_nil]
              at hfuel hbound ⊢
            omega
          have hres := ih (D + 1) (B ++ newNodes (neighbors cm a bidi) visited) []
            (visited ++ newNodes (neighbors cm a bidi) visited) hinv3 (fun _ => rfl) hfuel3
          simpa using hres
        · exact ih D A1 (B ++ newNodes (neighbors cm a bidi) visited)
            (visited ++ newNodes (neighbors cm a bidi) visited) hinv2
            (fun h => absurd h hA1) hfuel2

theorem calculateDistance_correct (cm : ConceptMap) (bidi : Bool) (s t : Str) :
    (∀ k, calculateDistance cm s t bidi = some k ↔ MinDist cm bidi s t k) ∧
    (calculateDistance cm s t bidi = none ↔ ∀ j, ¬ Reach cm bidi s j t) := by
  by_cases hst : s = t
  · subst hst
    unfold calculateDistance
    rw [if_pos rfl]
    have h0 : MinDist cm bidi s s 0 := ⟨rfl, fun j hj => absurd hj (Nat.not_lt_zero j)⟩
    constructor
    · intro k
      constructor
      · intro hk
        injection hk with hk
        subst hk
        exact h0
      · intro hmin
        rw [MinDist_unique h0 hmin]
    · constructor
      · intro hnone
        exact Option.noConfusion hnone
      · intro hall
        exact absurd rfl (hall 0)
  · unfold calculateDistance
    rw [if_neg hst]
    have hinv0 : BfsInv cm bidi s t 0 [s] [] [s] := by
      refine ⟨?_, ?_, ?_, ?_, ?_, ?_, ?_, ?_, ?_, ?_, ?_⟩
      · intro x hx
        simp at hx
        subst hx
        exact ⟨rfl, fun j hj => absurd hj (Nat.not_lt_zero j)⟩
      · intro x hx
        simp at hx
      · simp
      · simp
      · intro x hx
        simpa using hx
      · simp
      · simp [Ne.symm hst]
      · intro y hy hynq
        simp at hy
        subst hy
        simp at hynq
      · intro y hy j hj hreach
        have hj0 : j = 0 := by omega
        subst hj0
        rw [Reach] at hreach
        subst hreach
        simp
      · intro j hj hreach
        have hj0 : j = 0 := by omega
        subst hj0
        rw [Reach] at hreach
        exact hst hreach.symm
      · intro x hx
        simp at hx
        subst hx
        simp
    have hfuel0 : (1 + 2 * cm.edges.length - ([s] : List Str).length) +
        (([s] : List Str) ++ ([] : List Str)).length < 2 * cm.edges.length + 2 := by
      simp only [List.append_nil, List.length_cons, List.length_nil]
      omega
    have hres := bfsLoop_correct cm bidi s t (2 * cm.edges.length + 2) 0 [s] [] [s]
      hinv0 (fun h => absurd h (by simp)) hfuel0
    simp only [List.map_cons, List.map_nil, List.append_nil] at hres
    constructor
    · intro k
      constructor
      · exact fun hk => hres.1 k hk
      · intro hmin
        rcases hv : bfsLoop cm t bidi (2 * cm.edges.length + 2) [(s, 0)] [s] with _ | k2
        · exact absurd hmin.1 (hres.2 hv k)
        · rw [MinDist_unique (hres.1 k2 hv) hmin]
    · constructor
      · exact hres.2
      · intro hall
        rcases hv : bfsLoop cm t bidi (2 * cm.edges.length + 2) [(s, 0)] [s] with _ | k2
        · rfl
        · exact absurd (hres.1 k2 hv).1 (hall k2)

/-- The spec's path graph A→B→C→D with activeNode A and the default
bidirectional mode. -/
def pathMap : ConceptMap :=
  setActiveNode (addEdge (addEdge (addEdge (addNode (addNode (addNode (addNode
    (emptyMap ("m").data) ("A").data none) ("B").data none) ("C").data none)
    ("D").data none) ("A").data ("B").data ("r").data) ("B").data ("C").data ("r").data)
    ("C").data ("D").data ("r").data) (some ("A").data)

/-- The same graph with bidirectional off and the active node D. -/
def pathMapDirD : ConceptMap :=
  setActiveNode (setBidirectional pathMap false) (some ("D").data)

/-- C2: with no active node the distance is the infinite sentinel (`none`);
with active node `a` the distance to `a` itself is 0; and in general
`getDistanceFromActive` returns `some k` exactly when `k` is the length in
edges of a shortest walk from the active node under the current traversal
mode (following both edge directions iff `bidirectional` is set), and the
sentinel exactly when no walk exists.  On the path graph A→B→C→D with
bidirectional mode and active A, the distances to A, B, C, D are 0, 1, 2, 3;
with bidirectional off and active D, the distance to A is the sentinel. -/
theorem distance_from_active_is_shortest_path :
    (∀ (cm : ConceptMap) (nid : Str), cm.filterState.activeNode = none →
      getDistanceFromActive cm nid = none) ∧
    (∀ (cm : ConceptMap) (a : Str), cm.filterState.activeNode = some a →
      getDistanceFromActive cm a = some 0) ∧
    (∀ (cm : ConceptMap) (nid a : Str), cm.filterState.activeNode = some a →
      ((∀ k, getDistanceFromActive cm nid = some k ↔
          MinDist cm cm.filterState.bidirectional a nid k) ∧
       (getDistanceFromActive cm nid = none ↔
          ∀ j, ¬ Reach cm cm.filterState.bidirectional a j nid))) ∧
    (getDistanceFromActive pathMap (("A").data) = some 0 ∧
     getDistanceFromActive pathMap (("B").data) = some 1 ∧
     getDistanceFromActive pathMap (("C").data) = some 2 ∧
     getDistanceFromActive pathMap (("D").data) = some 3 ∧
     getDistanceFromActive pathMapDirD (("A").data) = none) := by
  refine ⟨?_, ?_, ?_, rfl, rfl, rfl, rfl, rfl⟩
  · intro cm nid h
    unfold getDistanceFromActive
    rw [h]
  · intro cm a h
    unfold getDistanceFromActive
    rw [h]
    show calculateDistance cm a a cm.filterState.bidirectional = some 0
    unfold calculateDistance
    rw [if_pos rfl]
  · intro cm nid a h
    unfold getDistanceFromActive
    rw [h]
    exact calculateDistance_correct cm cm.filterState.bidirectional a nid

/-- Witness for C2: the sentinel on a map without an active node, and the
shortest-path characterization instantiated on the path graph (C is at
shortest distance 2 from A). -/
theorem distance_from_active_is_shortest_path_witness :
    getDistanceFromActive (emptyMap ("m").data) (("A").data) = none ∧
    getDistanceFromActive pathMap (("A").data) = some 0 ∧
    MinDist pathMap true (("A").data) (("C").data) 2 := by
  refine ⟨?_, ?_, ?_⟩
  · exact distance_from_active_is_shortest_path.1 (emptyMap ("m").data) (("A").data) rfl
  · exact distance_from_active_is_shortest_path.2.1 pathMap (("A").data) rfl
  · exact ((distance_from_active_is_shortest_path.2.2.1 pathMap (("C").data)
      (("A").data) rfl).1 2).mp rfl

/-! ## Round-trip infrastructure: first-occurrence splitting of emitted lines -/

theorem ddTok_eq : ddTok = ['-', '-'] := rfl

theorem arTok_eq : arTok = ['-', '>'] := rfl

theorem nlTok_eq : nlTok = ['\n'] := rfl

theorem containsTok_cons (tok : Str) (c : Char) (s : Str) :
    containsTok tok (c :: s) = (tok.isPrefixOf (c :: s) || containsTok tok s) := by
  unfold containsTok
  by_cases h : tok.isPrefixOf (c :: s)
  · rw [splitFirst, if_pos h]
    simp [h]
  · rw [splitFirst, if_neg h]
    have hb : tok.isPrefixOf (c :: s) = false := by
      rw [← Bool.not_eq_true]
      exact h
    rw [hb, Bool.false_or]
    rcases hs : splitFirst tok s with _ | ⟨a, b⟩ <;> simp

theorem containsTok_singleton {c : Char} {s : Str} :
    containsTok [c] s = true ↔ c ∈ s := by
  rw [containsTok_iff (by simp)]
  constructor
  · rintro ⟨a, b, rfl⟩
    simp
  · intro h
    rcases List.mem_iff_append.mp h with ⟨u, v, rfl⟩
    exact ⟨u, v, by simp⟩

theorem containsTok_singleton_false {c : Char} {s : Str} (h : c ∉ s) :
    containsTok [c] s = false := by
  rw [← Bool.not_eq_true, containsTok_singleton]
  exact h

/-- A two-character token occurs in `u ++ v` only inside `u`, inside `v`, or
straddling the boundary. -/
theorem containsTok_two_append {t0 t1 : Char} {u v : Str}
    (hu : containsTok [t0, t1] u = false)
    (hv : containsTok [t0, t1] v = false)
    (hbd : ∀ cu, u.getLast? = some cu → ∀ cv, v.head? = some cv → ¬(cu = t0 ∧ cv = t1)) :
    containsTok [t0, t1] (u ++ v) = false := by
  induction u with
  | nil => simpa using hv
  | cons c u ih =>
    rw [List.cons_append, containsTok_cons]
    have hu2 : containsTok [t0, t1] u = false := by
      rw [containsTok_cons] at hu
      exact (Bool.or_eq_false_iff.mp hu).2
    have hpref : ([t0, t1].isPrefixOf (c :: (u ++ v))) = false := by
      rw [← Bool.not_eq_true, List.isPrefixOf_iff_prefix]
      rintro ⟨rest, hrest⟩
      have hrest2 : t0 :: t1 :: rest = c :: (u ++ v) := by simpa using hrest
      injection hrest2 with h0 hrest3
      subst h0
      cases u with
      | nil =>
        simp only [List.nil_append] at hrest3
        subst hrest3
        exact hbd t0 (by simp) t1 rfl ⟨rfl, rfl⟩
      | cons d u2 =>
        injection hrest3 with h1 _
        subst h1
        rw [containsTok_cons] at hu
        have hp2 : ([t0, t1].isPrefixOf (t0 :: t1 :: u2)) = true := by
          rw [List.isPrefixOf_iff_prefix]
          exact ⟨u2, rfl⟩
        rw [hp2] at hu
        simp at hu
    rw [hpref, Bool.false_or]
    refine ih hu2 ?_
    intro cu hcu cv hcv
    cases u with
    | nil => simp at hcu
    | cons d u2 =>
      refine hbd cu ?_ cv hcv
      rw [List.getLast?_cons_cons]
      exact hcu

/-- `splitFirst` splits at a designated occurrence of `tok` provided no
occurrence starts earlier, i.e. `tok` does not occur in the part of the
string that ends strictly before the designated occurrence ends. -/
theorem splitFirst_first_occ {tok : Str} (htok : tok ≠ []) {P suffix : Str}
    (h : containsTok tok (P ++ tok.dropLast) = false) :
    splitFirst tok (P ++ tok ++ suffix) = some (P, suffix) := by
  induction P with
  | nil =>
    rcases tok with _ | ⟨c, tok2⟩
    · exact absurd rfl htok
    · show splitFirst (c :: tok2) ((c :: tok2) ++ suffix) = _
      rw [List.cons_append, splitFirst]
      have hp : (c :: tok2).isPrefixOf (c :: (tok2 ++ suffix)) = true := by
        rw [List.isPrefixOf_iff_prefix]
        exact ⟨suffix, by simp⟩
      rw [if_pos hp]
      have hd : (c :: (tok2 ++ suffix)).drop (c :: tok2).length = suffix := by
        have h2 := List.drop_left (c :: tok2) suffix
        simp only [List.cons_append] at h2
        exact h2
      rw [hd]
  | cons p P ih =>
    rw [List.cons_append, List.cons_append, splitFirst]
    have hpref : tok.isPrefixOf (p :: (P ++ tok ++ suffix)) = false := by
      rw [← Bool.not_eq_true, List.isPrefixOf_iff_prefix]
      intro hp
      have hp2 : (p :: (P ++ tok.dropLast)) <+: (p :: (P ++ tok ++ suffix)) := by
        refine List.cons_prefix_cons.mpr ⟨rfl, ?_⟩
        rcases List.eq_nil_or_concat tok with rfl | ⟨t2, c, rfl⟩
        · exact absurd rfl htok
        · refine ⟨[c] ++ suffix, ?_⟩
          simp [List.dropLast_concat, List.append_assoc]
      have hlen : tok.length ≤ (p :: (P ++ tok.dropLast)).length := by
        simp only [List.length_cons, List.length_append, List.length_dropLast]
        have : 1 ≤ tok.length := List.length_pos.mpr htok
        omega
      have hsub : tok <+: (p :: (P ++ tok.dropLast)) := by
        rcases List.prefix_or_prefix_of_prefix hp hp2 with h1 | h1
        · exact h1
        · rw [List.IsPrefix.eq_of_length h1
            (Nat.le_antisymm h1.length_le hlen)]
      rcases hsub with ⟨rest, hrest⟩
      have : containsTok tok (p :: (P ++ tok.dropLast)) = true := by
        rw [containsTok_iff htok]
        exact ⟨[], rest, by simp [hrest]⟩
      rw [← List.cons_append] at this
      rw [this] at h
      exact Bool.noConfusion h
    rw [hpref]
    simp only [Bool.false_eq_true, if_false]
    have h2 : containsTok tok (P ++ tok.dropLast) = false := by
      rcases hc : containsTok tok (P ++ tok.dropLast) with _ | _
      · rfl
      · have hin : (P ++ tok.dropLast) <:+: (p :: (P ++ tok.dropLast)) :=
          List.infix_cons (List.infix_refl _)
        have := containsTok_mono htok hin hc
        rw [← List.cons_append] at this
        rw [this] at h
        exact Bool.noConfusion h
    rw [ih h2]

theorem ldrop_ne_nil {s : Str} {c : Char} (h : s.getLast? = some c)
    (hc : isWs c = false) : ldrop s ≠ [] := by
  intro hnil
  rw [ldrop, List.dropWhile_eq_nil_iff] at hnil
  rw [hnil c (List.mem_of_mem_getLast? h)] at hc
  exact Bool.noConfusion hc

/-- Trimming a string whose last character is not whitespace keeps that last
character (provided the result is inspected via `getLast?`). -/
theorem trim_getLast_of_not_ws {s : Str} {c : Char} (h : s.getLast? = some c)
    (hc : isWs c = false) : (trim s).getLast? = some c := by
  have hne : ldrop s ≠ [] := ldrop_ne_nil h hc
  obtain ⟨u, hu⟩ := ldrop_suffix s
  have hlast : (ldrop s).getLast? = some c := by
    rw [← List.getLast?_append_of_ne_nil u hne, hu]
    exact h
  have hr : rdrop (ldrop s) = ldrop s := by
    apply rdrop_eq_self
    intro d hd
    rw [hlast] at hd
    injection hd with hd
    subst hd
    exact hc
  rw [trim, hr]
  exact hlast

/-- Invariant satisfied by every component of a predicate accepted by the
scanning loop: trim-fixed, non-empty, free of the `--`, `->` and newline
tokens. -/
def GoodStr (s : Str) : Prop :=
  trim s = s ∧ s ≠ [] ∧ containsTok ddTok s = false ∧ containsTok arTok s = false ∧
    ('\n') ∉ s

/-- Invariant satisfied by every predicate produced by a successful parse:
good components, and a target that does not end in a colon (a line ending in
a colon is consumed as a definition header instead). -/
def GoodPred (p : Predicate) : Prop :=
  GoodStr p.source ∧ GoodStr p.relationship ∧ GoodStr p.target ∧
    endsColon p.target = false

theorem nl_not_mem_of_containsFalse {s : Str} (h : containsTok nlTok s = false) :
    ('\n') ∉ s := by
  intro hm
  rw [nlTok_eq] at h
  have h2 := containsTok_singleton.mpr hm
  rw [h2] at h
  exact Bool.noConfusion h

/-- Dissection of an accepted `parsePredicate` call: the raw split parts and
all the validated properties of the trimmed components. -/
theorem parsePredicate_ok_decomp {line : Str} {p : Predicate}
    (h : parsePredicate line = .ok p) :
    containsTok nlTok line = false ∧
    ∃ rawS r1 rawR rawT,
      splitFirst ddTok line = some (rawS, r1) ∧
      splitFirst arTok r1 = some (rawR, rawT) ∧
      line = rawS ++ ddTok ++ rawR ++ arTok ++ rawT ∧
      p = ⟨trim rawS, trim rawR, trim rawT⟩ ∧
      trim rawS ≠ [] ∧ trim rawR ≠ [] ∧ trim rawT ≠ [] ∧
      containsTok ddTok (trim rawS) = false ∧ containsTok arTok (trim rawS) = false ∧
      containsTok ddTok (trim rawR) = false ∧ containsTok arTok (trim rawR) = false ∧
      containsTok ddTok (trim rawT) = false ∧ containsTok arTok (trim rawT) = false := by
  unfold parsePredicate at h
  rcases hnl : containsTok nlTok line with _ | _
  case true => rw [hnl] at h; simp at h
  rcases h1 : splitFirst ddTok line with _ | ⟨rawS, r1⟩
  · simp [hnl, h1] at h
  rcases h2 : splitFirst arTok r1 with _ | ⟨rawR, rawT⟩
  · simp [hnl, h1, h2] at h
  simp only [hnl, Bool.false_eq_true, if_false, h1, h2] at h
  refine ⟨rfl, rawS, r1, rawR, rawT, rfl, h2, ?_, ?_⟩
  · have hd1 : line = rawS ++ ddTok ++ r1 := splitFirst_decomp (by decide) line rawS r1 h1
    have hd2 : r1 = rawR ++ arTok ++ rawT := splitFirst_decomp (by decide) r1 rawR rawT h2
    rw [hd1, hd2]
    simp [List.append_assoc]
  · by_cases he : trim rawS = [] ∨ trim rawR = [] ∨ trim rawT = []
    · exfalso
      have : (trim rawS = [] || trim rawR = [] || trim rawT = []) = true := by
        rcases he with he | he | he <;> simp [he]
      rw [if_pos] at h
      · exact Except.noConfusion h
      · simpa using this
    · push_neg at he
      obtain ⟨heS, heR, heT⟩ := he
      rw [if_neg (by simpa using And.intro (And.intro heS heR) heT)] at h
      by_cases hbS : containsTok ddTok (trim rawS) = true ∨ containsTok arTok (trim rawS) = true
      · exfalso
        rw [if_pos (by rcases hbS with hb | hb <;> simp [hb])] at h
        exact Except.noConfusion h
      · push_neg at hbS
        obtain ⟨hS1, hS2⟩ := hbS
        rw [if_neg (by simp [hS1, hS2])] at h
        by_cases hbR : containsTok ddTok (trim rawR) = true ∨ containsTok arTok (trim rawR) = true
        · exfalso
          rw [if_pos (by rcases hbR with hb | hb <;> simp [hb])] at h
          exact Except.noConfusion h
        · push_neg at hbR
          obtain ⟨hR1, hR2⟩ := hbR
          rw [if_neg (by simp [hR1, hR2])] at h
          by_cases hbT : containsTok ddTok (trim rawT) = true ∨ containsTok arTok (trim rawT) = true
          · exfalso
            rw [if_pos (by rcases hbT with hb | hb <;> simp [hb])] at h
            exact Except.noConfusion h
          · push_neg at hbT
            obtain ⟨hT1, hT2⟩ := hbT
            rw [if_neg (by simp [hT1, hT2])] at h
            injection h with h
            exact ⟨h.symm, heS, heR, heT,
              Bool.eq_false_iff.mpr hS1, Bool.eq_false_iff.mpr hS2,
              Bool.eq_false_iff.mpr hR1, Bool.eq_false_iff.mpr hR2,
              Bool.eq_false_iff.mpr hT1, Bool.eq_false_iff.mpr hT2⟩

/-- A predicate accepted from a line that is trim-fixed with a non-whitespace
last character and does not end in a colon satisfies the `GoodPred`
invariant. -/
theorem parsePredicate_good {line : Str} {p : Predicate}
    (h : parsePredicate line = .ok p)
    (hcolon : endsColon line = false)
    (hlast : ∀ c, line.getLast? = some c → isWs c = false) :
    GoodPred p := by
  obtain ⟨hnl, rawS, r1, rawR, rawT, h1, h2, hdec, hp, heS, heR, heT,
    hS1, hS2, hR1, hR2, hT1, hT2⟩ := parsePredicate_ok_decomp h
  have hnlm : ('\n') ∉ line := nl_not_mem_of_containsFalse hnl
  have hSin : rawS <:+: line := ⟨[], ddTok ++ rawR ++ arTok ++ rawT, by
    rw [hdec]; simp [List.append_assoc]⟩
  have hRin : rawR <:+: line := ⟨rawS ++ ddTok, arTok ++ rawT, by
    rw [hdec]; simp [List.append_assoc]⟩
  have hTin : rawT <:+: line := ⟨rawS ++ ddTok ++ rawR ++ arTok, [], by
    rw [hdec]; simp [List.append_assoc]⟩
  have hTne : rawT ≠ [] := by
    intro hx
    rw [hx] at heT
    exact heT rfl
  have hTlast : rawT.getLast? = line.getLast? := by
    rw [hdec]
    rw [List.getLast?_append_of_ne_nil _ hTne]
  obtain ⟨clast, hclast⟩ : ∃ c, line.getLast? = some c := by
    rcases hgl : line.getLast? with _ | c
    · exfalso
      have : line = [] := List.getLast?_eq_none_iff.mp hgl
      rw [this] at hdec
      have hlen := congrArg List.length hdec
      simp [ddTok] at hlen
      omega
    · exact ⟨c, rfl⟩
  have hcws : isWs clast = false := hlast clast hclast
  have hTtr : (trim rawT).getLast? = some clast :=
    trim_getLast_of_not_ws (by rw [hTlast]; exact hclast) hcws
  subst hp
  refine ⟨⟨trim_idem rawS, heS, hS1, hS2, ?_⟩,
    ⟨trim_idem rawR, heR, hR1, hR2, ?_⟩,
    ⟨trim_idem rawT, heT, hT1, hT2, ?_⟩, ?_⟩
  · exact fun hm => hnlm (((trim_isInfix rawS).trans hSin).subset hm)
  · exact fun hm => hnlm (((trim_isInfix rawR).trans hRin).subset hm)
  · exact fun hm => hnlm (((trim_isInfix rawT).trans hTin).subset hm)
  · show endsColon (trim rawT) = false
    rw [endsColon, hTtr]
    rw [endsColon, hclast] at hcolon
    exact hcolon

/-- Every predicate accumulated by a successful run of the scanning loop
satisfies the `GoodPred` invariant. -/
theorem parseLoop_ok_good : ∀ (fuel : Nat) (rem : List Str) (i : Nat)
    (acc : List Predicate) (defs : List (Str × Str))
    (res : List Predicate × List (Str × Str)),
    (∀ p ∈ acc, GoodPred p) →
    parseLoop fuel rem i acc defs = .ok res →
    ∀ p ∈ res.1, GoodPred p := by
  intro fuel
  induction fuel with
  | zero =>
    intro rem i acc defs res hacc h
    cases rem <;> (injection h with h; rw [← h]; exact hacc)
  | succ fuel ih =>
    intro rem i acc defs res hacc h
    cases rem with
    | nil =>
      injection h with h
      rw [← h]
      exact hacc
    | cons l ls =>
      simp only [parseLoop] at h
      by_cases hb : trim l = []
      · rw [if_pos hb] at h
        exact ih ls (i + 1) acc defs res hacc h
      · rw [if_neg hb] at h
        by_cases hc : endsColon (trim l)
        · rw [if_pos hc] at h
          by_cases he : trim (trim l).dropLast = []
          · rw [if_pos he] at h
            exact Except.noConfusion h
          · rw [if_neg he] at h
            by_cases hd : truthyStr (assocLookup defs (trim (trim l).dropLast)) = true
            · rw [if_pos hd] at h
              exact Except.noConfusion h
            · rw [if_neg hd] at h
              rcases hs : scanBody ls with ⟨body, rest⟩
              rw [hs] at h
              rcases rest with _ | ⟨t, after⟩
              · exact Except.noConfusion h
              · exact ih after _ acc _ res hacc h
        · rw [if_neg hc] at h
          rcases hp : parsePredicate (trim l) with k | p
          · rw [hp] at h
            exact Except.noConfusion h
          · rw [hp] at h
            have hcF : endsColon (trim l) = false := Bool.eq_false_iff.mpr hc
            have hgood : GoodPred p :=
              parsePredicate_good hp hcF (fun c hc2 => trim_getLast_not_ws hc2)
            refine ih ls (i + 1) (acc ++ [p]) defs res ?_ h
            intro q hq
            rcases List.mem_append.mp hq with hq | hq
            · exact hacc q hq
            · rw [List.mem_singleton.mp hq]
              exact hgood

/-! ## Round-trip infrastructure: the emitted map and its DSL text -/

/-- The edge built from a predicate by `fromParsedDeclarations`. -/
def toEdge (p : Predicate) : Edge := ⟨p.source, p.target, p.relationship⟩

theorem toEdge_eid (p : Predicate) : (toEdge p).eid = predKey p := rfl

theorem addNode_edges (cm : ConceptMap) (id : Str) (d : Option Str) :
    (addNode cm id d).edges = cm.edges := by
  unfold addNode
  split
  · cases d <;> rfl
  · rfl

theorem addNode_none_def {cm : ConceptMap} {id : Str}
    (h : ∀ n ∈ cm.nodes, n.definition = none) :
    ∀ n ∈ (addNode cm id none).nodes, n.definition = none := by
  unfold addNode
  split
  · exact h
  · intro n hn
    rcases List.mem_append.mp hn with hn | hn
    · exact h n hn
    · rw [List.mem_singleton.mp hn]

theorem foldl_addNode_none : ∀ (ids : List Str) (cm : ConceptMap),
    (∀ n ∈ cm.nodes, n.definition = none) →
    (∀ n ∈ (ids.foldl (fun cm id => addNode cm id none) cm).nodes,
        n.definition = none) ∧
      (ids.foldl (fun cm id => addNode cm id none) cm).edges = cm.edges := by
  intro ids
  induction ids with
  | nil => exact fun cm h => ⟨h, rfl⟩
  | cons id ids ih =>
    intro cm h
    have h2 := ih (addNode cm id none) (addNode_none_def h)
    exact ⟨h2.1, by rw [List.foldl_cons, h2.2, addNode_edges]⟩

theorem edgeSet_fresh {es : List Edge} {e : Edge}
    (h : ∀ e1 ∈ es, e1.eid ≠ e.eid) : edgeSet es e = es ++ [e] := by
  induction es with
  | nil => rfl
  | cons e1 es ih =>
    rw [edgeSet, if_neg (h e1 (List.mem_cons_self e1 es)),
      ih (fun e2 he2 => h e2 (List.mem_cons_of_mem e1 he2)), List.cons_append]

theorem addEdge_nodes (cm : ConceptMap) (s t r : Str) :
    (addEdge cm s t r).nodes = cm.nodes := rfl

theorem foldl_addEdge_edges : ∀ (ps : List Predicate) (cm : ConceptMap),
    ps.Pairwise (fun a b => predKey a ≠ predKey b) →
    (∀ e ∈ cm.edges, ∀ p ∈ ps, e.eid ≠ predKey p) →
    (ps.foldl (fun cm p => addEdge cm p.source p.target p.relationship) cm).edges
      = cm.edges ++ ps.map toEdge := by
  intro ps
  induction ps with
  | nil => exact fun cm _ _ => by simp
  | cons q ps ih =>
    intro cm hpair hfresh
    rw [List.foldl_cons]
    have hq : (addEdge cm q.source q.target q.relationship).edges
        = cm.edges ++ [toEdge q] := by
      unfold addEdge
      exact edgeSet_fresh (fun e1 he1 =>
        hfresh e1 he1 q (List.mem_cons_self q ps))
    have hrec := ih (addEdge cm q.source q.target q.relationship)
      (List.Pairwise.of_cons hpair) ?_
    · rw [hrec, hq, List.map_cons, List.append_assoc, List.singleton_append]
    · intro e he p hp
      rw [hq] at he
      rcases List.mem_append.mp he with he | he
      · exact hfresh e he p (List.mem_cons_of_mem q hp)
      · rw [List.mem_singleton.mp he, toEdge_eid]
        exact (List.rel_of_pairwise_cons hpair hp)

theorem foldl_addEdge_nodes : ∀ (ps : List Predicate) (cm : ConceptMap),
    (ps.foldl (fun cm p => addEdge cm p.source p.target p.relationship) cm).nodes
      = cm.nodes := by
  intro ps
  induction ps with
  | nil => exact fun _ => rfl
  | cons q ps ih => exact fun cm => by rw [List.foldl_cons, ih, addEdge_nodes]

/-- With no definitions at all, `fromParsedDeclarations` produces a map whose
edge list is exactly the predicate list (one edge per predicate, in order,
provided the keys are pairwise distinct) and whose nodes all lack
definitions. -/
theorem fromParsedDeclarations_no_defs {name : Str} {ps : List Predicate}
    {e : List ParseError} {w : List ParseWarning}
    (hpair : ps.Pairwise (fun a b => predKey a ≠ predKey b)) :
    (fromParsedDeclarations name ⟨ps, [], e, w⟩).edges = ps.map toEdge ∧
    ∀ n ∈ (fromParsedDeclarations name ⟨ps, [], e, w⟩).nodes,
      n.definition = none := by
  unfold fromParsedDeclarations
  simp only [assocLookup]
  have h1 := foldl_addNode_none (predConcepts ps) (emptyMap name)
    (by intro n hn; exact absurd hn (List.not_mem_nil n))
  constructor
  · rw [foldl_addEdge_edges ps _ hpair ?_, h1.2]
    · rfl
    · intro e2 he2
      rw [h1.2] at he2
      exact absurd he2 (List.not_mem_nil e2)
  · intro n hn
    rw [foldl_addEdge_nodes] at hn
    exact h1.1 n hn

/-! ## Round-trip infrastructure: the emitted text and its reparse -/

theorem edgeLine_toEdge (p : Predicate) :
    edgeLine (toEdge p) =
      p.source ++ [' ', '-', '-', ' '] ++ p.relationship ++ [' ', '-', '>', ' ']
        ++ p.target := rfl

theorem joinNl_ne_nil {l : Str} (ls : List Str) (h : l ≠ []) :
    joinNl (l :: ls) ≠ [] := by
  cases ls with
  | nil => exact h
  | cons l2 ls =>
    rw [joinNl_cons_cons]
    simp

theorem joinNl_head {l : Str} (ls : List Str) (h : l ≠ []) :
    (joinNl (l :: ls)).head? = l.head? := by
  cases ls with
  | nil => rfl
  | cons l2 ls =>
    rw [joinNl_cons_cons, List.head?_append]
    rcases l with _ | ⟨c, cs⟩
    · exact absurd rfl h
    · rfl

theorem joinNl_getLast_mem : ∀ (L : List Str), (∀ l ∈ L, l ≠ []) → L ≠ [] →
    ∃ l ∈ L, (joinNl L).getLast? = l.getLast? := by
  intro L
  induction L with
  | nil => exact fun _ h => absurd rfl h
  | cons l ls ih =>
    intro hne _
    cases ls with
    | nil => exact ⟨l, List.mem_cons_self l [], rfl⟩
    | cons l2 ls2 =>
      obtain ⟨l3, hl3, heq⟩ := ih (fun x hx => hne x (List.mem_cons_of_mem l hx))
        (by simp)
      refine ⟨l3, List.mem_cons_of_mem l hl3, ?_⟩
      rw [joinNl_cons_cons,
        List.getLast?_append_of_ne_nil _ (by simp : ('\n') :: joinNl (l2 :: ls2) ≠ []),
        show ('\n') :: joinNl (l2 :: ls2) = ['\n'] ++ joinNl (l2 :: ls2) from rfl,
        List.getLast?_append_of_ne_nil _
          (joinNl_ne_nil ls2 (hne l2 (by simp)))]
      exact heq

/-- The first `--` of an emitted line is the one inside the ` -- ` separator:
the source contains none and cannot complete one across the boundary. -/
theorem edgeLine_split1 {p : Predicate} (h : GoodPred p) :
    splitFirst ddTok (edgeLine (toEdge p)) =
      some (p.source ++ [' '],
        [' '] ++ p.relationship ++ [' ', '-', '>', ' '] ++ p.target) := by
  obtain ⟨⟨_, _, hSdd, _, _⟩, _, _, _⟩ := h
  have hre : edgeLine (toEdge p)
      = (p.source ++ [' ']) ++ ddTok ++
        ([' '] ++ p.relationship ++ [' ', '-', '>', ' '] ++ p.target) := by
    rw [edgeLine_toEdge, ddTok_eq]
    simp [List.append_assoc]
  rw [hre]
  apply splitFirst_first_occ (by decide)
  rw [ddTok_eq]
  show containsTok ['-', '-'] ((p.source ++ [' ']) ++ ['-']) = false
  rw [List.append_assoc]
  apply containsTok_two_append (v := [' ', '-'])
  · rw [← ddTok_eq]
    exact hSdd
  · decide
  · intro cu _ cv hcv hp
    injection hcv with hcv
    rw [← hcv] at hp
    exact absurd hp.2 (by decide)

/-- The first `->` after the first `--` of an emitted line is the one inside
the ` -> ` separator. -/
theorem edgeLine_split2 {p : Predicate} (h : GoodPred p) :
    splitFirst arTok ([' '] ++ p.relationship ++ [' ', '-', '>', ' '] ++ p.target) =
      some ([' '] ++ p.relationship ++ [' '], [' '] ++ p.target) := by
  obtain ⟨_, ⟨_, _, _, hRar, _⟩, _, _⟩ := h
  have hre : [' '] ++ p.relationship ++ [' ', '-', '>', ' '] ++ p.target
      = ([' '] ++ p.relationship ++ [' ']) ++ arTok ++ ([' '] ++ p.target) := by
    rw [arTok_eq]
    simp [List.append_assoc]
  rw [hre]
  apply splitFirst_first_occ (by decide)
  rw [arTok_eq]
  show containsTok ['-', '>'] (([' '] ++ p.relationship ++ [' ']) ++ ['-']) = false
  rw [List.append_assoc]
  apply containsTok_two_append (v := [' ', '-'])
  · show containsTok ['-', '>'] (' ' :: p.relationship) = false
    rw [containsTok_cons]
    have h1 : (['-', '>'].isPrefixOf (' ' :: p.relationship)) = false := by
      rw [← Bool.not_eq_true, List.isPrefixOf_iff_prefix]
      rintro ⟨t, ht⟩
      simp only [List.cons_append] at ht
      injection ht with h0 _
      exact absurd h0 (by decide)
    rw [h1, Bool.false_or, ← arTok_eq]
    exact hRar
  · decide
  · intro cu _ cv hcv hp
    injection hcv with hcv
    rw [← hcv] at hp
    exact absurd hp.2 (by decide)

/-- An emitted predicate line parses back to exactly the predicate it was
emitted from. -/
theorem parse_edgeLine {p : Predicate} (h : GoodPred p) :
    parsePredicate (edgeLine (toEdge p)) = .ok p := by
  obtain ⟨⟨hSt, hSne, hSdd, hSar, hSnl⟩, ⟨hRt, hRne, hRdd, hRar, hRnl⟩,
    ⟨hTt, hTne, hTdd, hTar, hTnl⟩, _⟩ := id h
  have hnl : containsTok nlTok (edgeLine (toEdge p)) = false := by
    rw [nlTok_eq]
    apply containsTok_singleton_false
    intro hm
    rw [edgeLine_toEdge] at hm
    rcases List.mem_append.mp hm with hm | hm
    · rcases List.mem_append.mp hm with hm | hm
      · rcases List.mem_append.mp hm with hm | hm
        · rcases List.mem_append.mp hm with hm | hm
          · exact hSnl hm
          · exact absurd hm (by decide)
        · exact hRnl hm
      · exact absurd hm (by decide)
    · exact hTnl hm
  have h1 := edgeLine_split1 h
  have h2 := edgeLine_split2 h
  have htrS : trim (p.source ++ [' ']) = p.source := by
    rw [trim_append_ws (by decide)]
    exact hSt
  have htrR : trim ([' '] ++ p.relationship ++ [' ']) = p.relationship := by
    show trim (' ' :: (p.relationship ++ [' '])) = p.relationship
    rw [trim_cons_ws (by decide), trim_append_ws (by decide)]
    exact hRt
  have htrT : trim ([' '] ++ p.target) = p.target := by
    show trim (' ' :: p.target) = p.target
    rw [trim_cons_ws (by decide)]
    exact hTt
  unfold parsePredicate
  simp only [hnl, Bool.false_eq_true, if_false, h1, h2, htrS, htrR, htrT]
  rw [if_neg (by simp [hSne, hRne, hTne]), if_neg (by simp [hSdd, hSar]),
    if_neg (by simp [hRdd, hRar]), if_neg (by simp [hTdd, hTar])]

theorem edgeLine_ne_nil {p : Predicate} (_h : GoodPred p) :
    edgeLine (toEdge p) ≠ [] := by
  intro h0
  rw [edgeLine_toEdge] at h0
  simp [List.append_eq_nil] at h0

theorem edgeLine_getLast {p : Predicate} (h : GoodPred p) :
    (edgeLine (toEdge p)).getLast? = p.target.getLast? := by
  rw [edgeLine_toEdge]
  exact List.getLast?_append_of_ne_nil _ h.2.2.1.2.1

theorem edgeLine_trim {p : Predicate} (h : GoodPred p) :
    trim (edgeLine (toEdge p)) = edgeLine (toEdge p) := by
  obtain ⟨⟨hSt, hSne, _, _, _⟩, _, ⟨hTt, hTne, _, _, _⟩, _⟩ := id h
  rcases hS : p.source with _ | ⟨c, cs⟩
  · exact absurd hS hSne
  rcases hgl : p.target.getLast? with _ | d
  · exact absurd (List.getLast?_eq_none_iff.mp hgl) hTne
  have hhd : (edgeLine (toEdge p)).head? = some c := by
    rw [edgeLine_toEdge, hS]
    rfl
  have hlst : (edgeLine (toEdge p)).getLast? = some d := by
    rw [edgeLine_getLast h]
    exact hgl
  apply trim_eq_self
  · intro c0 hc0
    rw [hhd] at hc0
    injection hc0 with hc0
    subst hc0
    rw [hS] at hSt
    exact trim_head_not_ws hSt
  · intro d0 hd0
    rw [hlst] at hd0
    injection hd0 with hd0
    subst hd0
    apply trim_getLast_not_ws
    rw [hTt]
    exact hgl

theorem edgeLine_ends_colon {p : Predicate} (h : GoodPred p) :
    endsColon (edgeLine (toEdge p)) = false := by
  rcases hgl : p.target.getLast? with _ | d
  · exact absurd (List.getLast?_eq_none_iff.mp hgl) h.2.2.1.2.1
  have hcol := h.2.2.2
  rw [endsColon, hgl] at hcol
  rw [endsColon, edgeLine_getLast h, hgl]
  exact hcol

/-- The scanning loop over a list of emitted predicate lines accepts every
line and appends exactly the original predicates, touching no definitions. -/
theorem parseLoop_good_list : ∀ (L : List Predicate), (∀ p ∈ L, GoodPred p) →
    ∀ (fuel i : Nat) (acc : List Predicate) (defs : List (Str × Str)),
    L.length ≤ fuel →
    parseLoop fuel (L.map (fun p => edgeLine (toEdge p))) i acc defs
      = .ok (acc ++ L, defs) := by
  intro L
  induction L with
  | nil =>
    intro _ fuel i acc defs _
    cases fuel <;> simp [parseLoop]
  | cons q L ih =>
    intro hgood fuel i acc defs hfuel
    rcases fuel with _ | fuel
    · simp at hfuel
    · have hq : GoodPred q := hgood q (by simp)
      simp only [List.map_cons, parseLoop, edgeLine_trim hq]
      rw [if_neg (edgeLine_ne_nil hq)]
      simp only [edgeLine_ends_colon hq, Bool.false_eq_true, if_false,
        parse_edgeLine hq]
      rw [ih (fun p hp => hgood p (List.mem_cons_of_mem q hp)) fuel (i + 1)
        (acc ++ [q]) defs (by simp at hfuel ⊢; omega)]
      simp [List.append_assoc]

theorem edgeLine_no_nl {p : Predicate} (h : GoodPred p) :
    ('\n') ∉ edgeLine (toEdge p) := by
  obtain ⟨⟨_, _, _, _, hSnl⟩, ⟨_, _, _, _, hRnl⟩, ⟨_, _, _, _, hTnl⟩, _⟩ := h
  intro hm
  rw [edgeLine_toEdge] at hm
  rcases List.mem_append.mp hm with hm | hm
  · rcases List.mem_append.mp hm with hm | hm
    · rcases List.mem_append.mp hm with hm | hm
      · rcases List.mem_append.mp hm with hm | hm
        · exact hSnl hm
        · exact absurd hm (by decide)
      · exact hRnl hm
    · exact absurd hm (by decide)
  · exact hTnl hm

theorem trim_fixed_head_not_ws {l : Str} (h : trim l = l) {c : Char}
    (hc : l.head? = some c) : isWs c = false := by
  rcases l with _ | ⟨c1, cs⟩
  · exact Option.noConfusion hc
  · injection hc with hc
    subst hc
    exact trim_head_not_ws h

theorem trim_fixed_getLast_not_ws {l : Str} (h : trim l = l) {c : Char}
    (hc : l.getLast? = some c) : isWs c = false := by
  apply trim_getLast_not_ws (l := l)
  rw [h]
  exact hc

theorem map_edgeLine_toEdge (ps : List Predicate) :
    (ps.map toEdge).map edgeLine = ps.map (fun p => edgeLine (toEdge p)) := by
  rw [List.map_map]
  rfl

/-- Nodes without definitions contribute nothing to the definition blocks of
`toDSL`. -/
theorem defs_foldl_none : ∀ (ns : List Node) (acc : List Str),
    (∀ n ∈ ns, n.definition = none) →
    ns.foldl
      (fun acc n =>
        match n.definition with
        | some d => if d.isEmpty then acc else acc ++ [n.id ++ [':'], d, termTok, []]
        | none => acc) acc = acc := by
  intro ns
  induction ns with
  | nil => exact fun _ _ => rfl
  | cons n ns ih =>
    intro acc h
    rw [List.foldl_cons]
    have hn : n.definition = none := h n (by simp)
    simp only [hn]
    exact ih acc (fun m hm => h m (by simp [hm]))

/-- Core of the round trip: a predicate-only parse result, re-serialized and
re-parsed, reproduces exactly its predicate list with no errors. -/
theorem roundTrip_core (name : Str) (ps : List Predicate) (e : List ParseError)
    (w : List ParseWarning)
    (hgood : ∀ p ∈ ps, GoodPred p)
    (hpair : ps.Pairwise (fun a b => predKey a ≠ predKey b)) :
    (parseDSL (toDSL (fromParsedDeclarations name ⟨ps, [], e, w⟩))).errors = [] ∧
    (parseDSL (toDSL (fromParsedDeclarations name ⟨ps, [], e, w⟩))).predicates = ps := by
  obtain ⟨hed, hnd⟩ :=
    @fromParsedDeclarations_no_defs name ps e w hpair
  rcases ps with _ | ⟨q, ps2⟩
  · have hed0 : (fromParsedDeclarations name
        (⟨[], [], e, w⟩ : ParsedDeclarations)).edges = [] := by
      rw [hed]
      rfl
    have hdsl : toDSL (fromParsedDeclarations name ⟨[], [], e, w⟩) = [] := by
      simp only [toDSL, hed0, List.map_nil, List.length_nil, gt_iff_lt,
        Nat.lt_irrefl, if_false, List.nil_append]
      rw [defs_foldl_none _ [] hnd]
      rfl
    rw [hdsl]
    exact ⟨rfl, rfl⟩
  · have hLg : ∀ p ∈ q :: ps2, GoodPred p := hgood
    have hLne : ∀ l ∈ (q :: ps2).map (fun p => edgeLine (toEdge p)), l ≠ [] := by
      intro l hl
      obtain ⟨p, hp, rfl⟩ := List.mem_map.mp hl
      exact edgeLine_ne_nil (hLg p hp)
    have hLnl : ∀ l ∈ (q :: ps2).map (fun p => edgeLine (toEdge p)), ('\n') ∉ l := by
      intro l hl
      obtain ⟨p, hp, rfl⟩ := List.mem_map.mp hl
      exact edgeLine_no_nl (hLg p hp)
    have hjtrim : trim (joinNl ((q :: ps2).map (fun p => edgeLine (toEdge p))))
        = joinNl ((q :: ps2).map (fun p => edgeLine (toEdge p))) := by
      apply trim_eq_self
      · intro c hc
        rw [List.map_cons,
          joinNl_head _ (edgeLine_ne_nil (hLg q (by simp)))] at hc
        exact trim_fixed_head_not_ws (edgeLine_trim (hLg q (by simp))) hc
      · intro c hc
        obtain ⟨l, hl, heq⟩ := joinNl_getLast_mem _ hLne (by simp)
        rw [heq] at hc
        obtain ⟨p, hp, rfl⟩ := List.mem_map.mp hl
        exact trim_fixed_getLast_not_ws (edgeLine_trim (hLg p hp)) hc
    have hdsl : toDSL (fromParsedDeclarations name ⟨q :: ps2, [], e, w⟩)
        = joinNl ((q :: ps2).map (fun p => edgeLine (toEdge p))) := by
      simp only [toDSL]
      rw [defs_foldl_none _ [] hnd, List.append_nil, hed, map_edgeLine_toEdge,
        if_pos (by simp : (List.map toEdge (q :: ps2)).length > 0),
        joinNl_append_nil (by simp), trim_append_ws (by decide)]
      exact hjtrim
    have hsp : splitLines (toDSL (fromParsedDeclarations name ⟨q :: ps2, [], e, w⟩))
        = (q :: ps2).map (fun p => edgeLine (toEdge p)) := by
      rw [hdsl]
      exact splitLines_joinNl hLnl (by simp)
    have hloop := parseLoop_good_list (q :: ps2) hLg
      ((q :: ps2).map (fun p => edgeLine (toEdge p))).length 0 [] [] (by simp)
    constructor
    · simp only [parseDSL, hsp, hloop]
    · simp only [parseDSL, hsp, hloop, List.nil_append]
      exact dedupPreds_eq_self hpair

/-- C8: for a successfully parsed, predicate-only DSL text, serializing the
resulting `ConceptMap` with `toDSL` and re-parsing succeeds and reproduces the
same predicate set: membership of a (source, relationship, target) triple in
the re-parsed predicates coincides with membership in the original parse's
predicates (here the two lists are even equal element-for-element). -/
theorem toDSL_parse_round_trip (text name : Str)
    (herr : (parseDSL text).errors = [])
    (hdef : (parseDSL text).definitions = []) :
    (parseDSL (toDSL (fromParsedDeclarations name (parseDSL text)))).errors = [] ∧
    ∀ p : Predicate,
      p ∈ (parseDSL (toDSL (fromParsedDeclarations name (parseDSL text)))).predicates ↔
        p ∈ (parseDSL text).predicates := by
  rcases hpl : parseLoop (splitLines text).length (splitLines text) 0 [] []
    with e | ⟨preds, defs⟩
  · have hpe : parseDSL text = ⟨[], [], [e], []⟩ := by
      simp only [parseDSL, hpl]
    rw [hpe] at herr
    exact absurd herr (by simp)
  · have hPD : parseDSL text = ⟨dedupPreds preds, defs, [],
        orphanWarnings defs (predConcepts (dedupPreds preds)) ++
          missingWarnings (predConcepts (dedupPreds preds)) defs⟩ := by
      simp only [parseDSL, hpl]
    have hdefs : defs = [] := by
      rw [hPD] at hdef
      exact hdef
    subst hdefs
    have hgoodAll : ∀ p ∈ preds, GoodPred p :=
      parseLoop_ok_good _ _ _ _ _ _ (fun p hp => absurd hp (List.not_mem_nil p)) hpl
    have hgood : ∀ p ∈ dedupPreds preds, GoodPred p :=
      fun p hp => hgoodAll p ((dedupPreds_sublist preds).subset hp)
    have hpair := dedupPreds_keys_pairwise preds
    have hcore := roundTrip_core name (dedupPreds preds) []
      (orphanWarnings [] (predConcepts (dedupPreds preds)) ++
        missingWarnings (predConcepts (dedupPreds preds)) []) hgood hpair
    rw [hPD]
    refine ⟨hcore.1, ?_⟩
    intro p
    rw [hcore.2]

/-- The round-trip witness input: two predicate lines and nothing else. -/
def c8Text : Str := ("A -- r -> B\nB -- s -> C").data

/-- Witness for C8: on a concrete two-predicate text the original parse
succeeds with no definitions, the round trip through
`fromParsedDeclarations` and `toDSL` re-parses without errors, and the
first triple survives the round trip. -/
theorem toDSL_parse_round_trip_witness :
    (parseDSL c8Text).errors = [] ∧
    (parseDSL (toDSL (fromParsedDeclarations (("m").data) (parseDSL c8Text)))).errors
      = [] ∧
    ((⟨("A").data, ("r").data, ("B").data⟩ : Predicate) ∈
        (parseDSL (toDSL (fromParsedDeclarations (("m").data)
          (parseDSL c8Text)))).predicates ↔
      (⟨("A").data, ("r").data, ("B").data⟩ : Predicate) ∈
        (parseDSL c8Text).predicates) :=
  ⟨rfl, (toDSL_parse_round_trip c8Text (("m").data) rfl rfl).1,
    (toDSL_parse_round_trip c8Text (("m").data) rfl rfl).2 _⟩

end Cartograph
